import Mathlib

set_option maxHeartbeats 1000000
set_option maxRecDepth 8000

/-!
Verification of the goban rule engine of `src/goban.js`: board state,
liberty analysis (`noLibs`), capture detection (`capture`), the play-mode
click handler (occupancy, suicide and ko checks), and the undo/redo
move-history state machine of `class Game`.  Rendering (canvas drawing)
and DOM widget manipulation (`Controls`, button elements) carry no engine
state and are omitted, as are the pixel-geometry helpers.
-/

namespace Goban

/-- Players (JS `Player = {B: 0, W: 1}`). -/
inductive Player where
  | B
  | W
deriving DecidableEq

/-- The other player (JS `(x === Player.B) ? Player.W : Player.B`). -/
def Player.other : Player → Player
  | .B => .W
  | .W => .B

/-- A board cell: `none` models an empty position (JS `null`),
`some pl` a stone of player `pl`. -/
abbrev Cell := Option Player

/-- A cartesian goban position (JS `class Point`), integer coordinates. -/
structure Point where
  x : ℤ
  y : ℤ
deriving DecidableEq

/-- Logical board state (JS `class Board`): `state` is the flat
`size * size` array of cells, row-major, index `(y-1)*size + (x-1)`.
The drawing fields of the JS class (`ctx`, `pxSize`, `rule`, colors) and
the drawing methods never feed back into the rule logic and are omitted. -/
structure Board where
  size : ℕ
  state : List Cell
deriving DecidableEq

/-- Flat array index of a position (JS `(p.y - 1) * this.size + (p.x - 1)`).
On in-bounds positions the quantity is nonnegative, so `toNat` is exact. -/
def idxN (sz : ℕ) (p : Point) : ℕ :=
  ((p.y - 1) * (sz : ℤ) + (p.x - 1)).toNat

/-- The in-bounds predicate implicit in the JS bounds guards of
`Board.get` and `Board.set`. -/
def InBsz (sz : ℕ) (p : Point) : Prop :=
  1 ≤ p.x ∧ p.x ≤ (sz : ℤ) ∧ 1 ≤ p.y ∧ p.y ≤ (sz : ℤ)

instance (sz : ℕ) (p : Point) : Decidable (InBsz sz p) := by
  unfold InBsz; infer_instance

/-- A freshly constructed board (JS `new Array(size*size).fill(null)`). -/
def mkBoard (sz : ℕ) : Board :=
  ⟨sz, List.replicate (sz * sz) none⟩

/-- JS `Board.get`: `undefined` (here `none`) outside `[1,size]²`,
otherwise the stored cell. -/
def Board.get (b : Board) (p : Point) : Option Cell :=
  if p.x < 1 ∨ p.x > (b.size : ℤ) then none
  else if p.y < 1 ∨ p.y > (b.size : ℤ) then none
  else some (b.state.getD (idxN b.size p) none)

/-- JS `Board.set`: out of bounds returns `undefined` and leaves the array
alone; in bounds stores `val` and returns it.  The mutated board is
returned as the first component. -/
def Board.set (b : Board) (p : Point) (val : Cell) : Board × Option Cell :=
  if p.x < 1 ∨ p.x > (b.size : ℤ) then (b, none)
  else if p.y < 1 ∨ p.y > (b.size : ℤ) then (b, none)
  else ({ b with state := b.state.set (idxN b.size p) val }, some val)

theorem inB_of_get {b : Board} {p : Point} {c : Cell}
    (h : b.get p = some c) : InBsz b.size p := by
  unfold Board.get at h
  split at h
  · exact absurd h (by simp)
  · split at h
    · exact absurd h (by simp)
    · rename_i h1 h2
      push_neg at h1 h2
      exact ⟨h1.1, h1.2, h2.1, h2.2⟩

theorem get_eq_of_inB {b : Board} {p : Point} (h : InBsz b.size p) :
    b.get p = some (b.state.getD (idxN b.size p) none) := by
  obtain ⟨h1, h2, h3, h4⟩ := h
  unfold Board.get
  rw [if_neg (by omega), if_neg (by omega)]

/-- The four orthogonal neighbours in the scan order of the source:
north, west, south, east. -/
def Point.north (p : Point) : Point := ⟨p.x, p.y - 1⟩

def Point.west (p : Point) : Point := ⟨p.x - 1, p.y⟩

def Point.south (p : Point) : Point := ⟨p.x, p.y + 1⟩

def Point.east (p : Point) : Point := ⟨p.x + 1, p.y⟩

/-- The list of orthogonal neighbours, in source scan order. -/
def nbrs (p : Point) : List Point :=
  [p.north, p.west, p.south, p.east]

/-- In-bounds positions of a board of size `sz`. -/
def InP (sz : ℕ) := { q : Point // InBsz sz q }

instance (sz : ℕ) : DecidableEq (InP sz) := fun a c =>
  decidable_of_iff (a.1 = c.1) Subtype.ext_iff.symm

theorem idxN_lt {sz : ℕ} {p : Point} (h : InBsz sz p) :
    idxN sz p < sz * sz := by
  obtain ⟨h1, h2, h3, h4⟩ := h
  unfold idxN
  have hsz : 1 ≤ (sz : ℤ) := le_trans h1 h2
  have hx : p.x - 1 ≤ (sz : ℤ) - 1 := by omega
  have hy : p.y - 1 ≤ (sz : ℤ) - 1 := by omega
  have hmul : (p.y - 1) * (sz : ℤ) ≤ ((sz : ℤ) - 1) * sz :=
    mul_le_mul_of_nonneg_right hy (by omega)
  have hub : (p.y - 1) * (sz : ℤ) + (p.x - 1) ≤ (sz : ℤ) * sz - 1 := by nlinarith
  have hnn : 0 ≤ (p.y - 1) * (sz : ℤ) := mul_nonneg (by omega) (by omega)
  have hcast : ((sz * sz : ℕ) : ℤ) = (sz : ℤ) * sz := by push_cast; ring
  omega

theorem idxN_inj {sz : ℕ} {p q : Point} (hp : InBsz sz p) (hq : InBsz sz q)
    (h : idxN sz p = idxN sz q) : p = q := by
  obtain ⟨hp1, hp2, hp3, hp4⟩ := hp
  obtain ⟨hq1, hq2, hq3, hq4⟩ := hq
  unfold idxN at h
  have hnp : 0 ≤ (p.y - 1) * (sz : ℤ) := mul_nonneg (by omega) (by omega)
  have hnq : 0 ≤ (q.y - 1) * (sz : ℤ) := mul_nonneg (by omega) (by omega)
  have h' : (p.y - 1) * (sz : ℤ) + (p.x - 1) = (q.y - 1) * (sz : ℤ) + (q.x - 1) := by
    omega
  have hy : p.y = q.y := by
    by_contra hne
    have hsz : 1 ≤ (sz : ℤ) := le_trans hp1 hp2
    rcases lt_or_gt_of_ne hne with hlt | hgt
    · have h1 : q.y - p.y ≥ 1 := by omega
      have : (sz : ℤ) ≤ (q.y - p.y) * sz := by nlinarith
      have hexp : (q.y - p.y) * (sz : ℤ) = (p.x - 1) - (q.x - 1) := by ring_nf; linarith [h']
      omega
    · have h1 : p.y - q.y ≥ 1 := by omega
      have : (sz : ℤ) ≤ (p.y - q.y) * sz := by nlinarith
      have hexp : (p.y - q.y) * (sz : ℤ) = (q.x - 1) - (p.x - 1) := by ring_nf; linarith [h']
      omega
  have hx : p.x = q.x := by
    rw [hy] at h'
    omega
  cases p; cases q
  simp_all

/-- Result of examining one neighbour inside the `noLibs` loop.
`none` models the JS early exit `if (pv === null) return []` (an empty
neighbour: the whole group has a liberty); `some (some q)` models
`else if (pv === player) stack.push(np)`; `some none` is a neighbour that
does nothing.  `g` is the JS bounds guard of the direction. -/
def dirScan (b : Board) (player : Cell) (g : Prop) [Decidable g] (np : Point) :
    Option (Option (InP b.size)) :=
  if g then
    if b.get np = some none then none
    else if h : b.get np = some player then some (some ⟨np, inB_of_get h⟩)
    else some none
  else some none

/-- Push an optionally scanned neighbour (JS `stack.push(np)`).  The list
head is the top of the JS array stack. -/
def pushO {sz : ℕ} (o : Option (InP sz)) (stack : List (InP sz)) : List (InP sz) :=
  match o with
  | none => stack
  | some q => q :: stack

/-- The `while (stack.length > 0)` loop of JS `Board.noLibs`: `visited`
holds the flat indices `i` with `visited[i]` set, `conn` the group in
visit order.  Each popped unvisited stone is recorded and its neighbours
are examined in source order north, west, south, east; an empty neighbour
aborts the whole call with `[]`, a same-`player` neighbour is pushed
(so the stack only ever holds in-bounds points, as in the source). -/
def noLibsLoop (b : Board) (player : Cell) :
    List (InP b.size) → Finset ℕ → List Point → List Point
  | [], _, conn => conn
  | curr :: rest, visited, conn =>
    if hv : idxN b.size curr.1 ∈ visited then
      noLibsLoop b player rest visited conn
    else
      match dirScan b player (1 < curr.1.y) curr.1.north with
      | none => []
      | some oN =>
        match dirScan b player (1 < curr.1.x) curr.1.west with
        | none => []
        | some oW =>
          match dirScan b player (curr.1.y < (b.size : ℤ)) curr.1.south with
          | none => []
          | some oS =>
            match dirScan b player (curr.1.x < (b.size : ℤ)) curr.1.east with
            | none => []
            | some oE =>
              noLibsLoop b player (pushO oE (pushO oS (pushO oW (pushO oN rest))))
                (insert (idxN b.size curr.1) visited) (conn ++ [curr.1])
termination_by stack visited _ => ((Finset.range (b.size * b.size) \ visited).card, stack.length)
decreasing_by
· exact Prod.Lex.right _ (by simp)
· apply Prod.Lex.left
  have hmem : idxN b.size curr.1 ∈ Finset.range (b.size * b.size) \ visited := by
    rw [Finset.mem_sdiff, Finset.mem_range]
    exact ⟨idxN_lt curr.2, hv⟩
  have hsub : Finset.range (b.size * b.size) \ insert (idxN b.size curr.1) visited ⊆
      Finset.range (b.size * b.size) \ visited := by
    intro x hx
    rw [Finset.mem_sdiff] at hx ⊢
    exact ⟨hx.1, fun hxv => hx.2 (Finset.mem_insert_of_mem hxv)⟩
  have hout : idxN b.size curr.1 ∉
      Finset.range (b.size * b.size) \ insert (idxN b.size curr.1) visited := by
    simp
  exact Finset.card_lt_card ((Finset.ssubset_iff_of_subset hsub).2 ⟨_, hmem, hout⟩)

/-- JS `Board.noLibs`: seeds the stack with `p` and `player = this.get(p)`
and runs the loop.  For an in-bounds `p` the JS value `player` is the raw
cell at `p`.  The engine never calls `noLibs` on an out-of-bounds point
(`capture` and the click handler only use it on stones); that unreached
case is modelled as `[]`. -/
def Board.noLibs (b : Board) (p : Point) : List Point :=
  if h : InBsz b.size p then
    noLibsLoop b (b.state.getD (idxN b.size p) none) [⟨p, h⟩] ∅ []
  else []

theorem get_eq_none_iff {b : Board} {p : Point} :
    b.get p = none ↔ ¬InBsz b.size p := by
  constructor
  · intro h hin
    rw [get_eq_of_inB hin] at h
    exact Option.noConfusion h
  · intro h
    unfold Board.get
    unfold InBsz at h
    push_neg at h
    by_cases h1 : p.x < 1 ∨ p.x > (b.size : ℤ)
    · rw [if_pos h1]
    · push_neg at h1
      rw [if_neg (by omega), if_pos (by omega)]

theorem size_set (b : Board) (p : Point) (v : Cell) :
    ((b.set p v).1).size = b.size := by
  unfold Board.set
  split
  · rfl
  · split <;> rfl

theorem length_set (b : Board) (p : Point) (v : Cell) :
    ((b.set p v).1).state.length = b.state.length := by
  unfold Board.set
  split
  · rfl
  · split
    · rfl
    · simp

theorem state_set_of_inB {b : Board} {p : Point} (v : Cell)
    (h : InBsz b.size p) :
    ((b.set p v).1).state = b.state.set (idxN b.size p) v := by
  obtain ⟨h1, h2, h3, h4⟩ := h
  unfold Board.set
  rw [if_neg (by omega), if_neg (by omega)]

theorem set_of_not_inB {b : Board} {p : Point} (v : Cell)
    (h : ¬InBsz b.size p) : (b.set p v).1 = b := by
  unfold Board.set
  unfold InBsz at h
  push_neg at h
  by_cases h1 : p.x < 1 ∨ p.x > (b.size : ℤ)
  · rw [if_pos h1]
  · push_neg at h1
    rw [if_neg (by omega), if_pos (by omega)]

theorem get_set_self {b : Board} {p : Point} (v : Cell)
    (hin : InBsz b.size p) (hlen : idxN b.size p < b.state.length) :
    ((b.set p v).1).get p = some v := by
  rw [get_eq_of_inB (by rw [size_set]; exact hin)]
  rw [size_set, state_set_of_inB v hin, List.getD_eq_getElem?_getD,
    List.getElem?_set_eq_of_lt v hlen]
  rfl

theorem get_set_ne {b : Board} {p q : Point} (v : Cell) (hne : q ≠ p) :
    ((b.set p v).1).get q = b.get q := by
  by_cases hp : InBsz b.size p
  · by_cases hq : InBsz b.size q
    · rw [get_eq_of_inB (by rw [size_set]; exact hq), get_eq_of_inB hq,
        size_set, state_set_of_inB v hp, List.getD_eq_getElem?_getD,
        List.getElem?_set_ne (fun h => hne (idxN_inj hp hq h).symm),
        ← List.getD_eq_getElem?_getD]
    · rw [get_eq_none_iff.2 (by rw [size_set]; exact hq), get_eq_none_iff.2 hq]
  · rw [set_of_not_inB v hp]

theorem set_set_revert {b : Board} {p : Point} (v : Cell)
    (h : b.get p = some none) : (((b.set p v).1).set p none).1 = b := by
  have hin : InBsz b.size p := inB_of_get h
  have hget : b.state.getD (idxN b.size p) none = none := by
    have := get_eq_of_inB hin
    rw [h] at this
    exact (Option.some_inj.1 this).symm
  have hsz := size_set b p v
  cases b1eq : (b.set p v).1 with
  | mk sz1 st1 =>
    have hsz1 : sz1 = b.size := by rw [← hsz, b1eq]
    have hst1 : st1 = b.state.set (idxN b.size p) v := by
      have := state_set_of_inB v hin
      rw [b1eq] at this
      exact this
    have hin1 : InBsz sz1 p := by rw [hsz1]; exact hin
    have : (Board.mk sz1 st1).set p none =
        (⟨sz1, st1.set (idxN sz1 p) none⟩, some none) := by
      obtain ⟨g1, g2, g3, g4⟩ := hin1
      unfold Board.set
      dsimp only
      rw [if_neg (by omega), if_neg (by omega)]
    rw [this]
    have hstate : st1.set (idxN sz1 p) none = b.state := by
      rw [hst1, hsz1, List.set_set]
      apply List.ext_getElem?
      intro j
      rw [List.getElem?_set]
      split
      · rename_i hj
        split
        · rename_i hjlt
          rw [← hj]
          rw [List.getD_eq_getElem?_getD] at hget
          cases hx : b.state[idxN b.size p]? with
          | none => rw [hx] at hget; exact absurd hget (by simp [List.getElem?_eq_none_iff] at hx ⊢; omega)
          | some c =>
            rw [hx] at hget
            simp at hget
            rw [hget]
        · rename_i hjlt
          rw [← hj]
          exact (List.getElem?_eq_none (by omega)).symm
      · rfl
    rw [hstate, hsz1]

/-- A stone of player `pl` stands at `q`. -/
def stone (b : Board) (pl : Player) (q : Point) : Prop :=
  b.get q = some (some pl)

/-- One connectivity step: `r` is an orthogonal neighbour of `q` holding a
stone of the same player. -/
def stepTo (b : Board) (pl : Player) (q r : Point) : Prop :=
  r ∈ nbrs q ∧ stone b pl r

/-- Membership in the orthogonally connected group of `pl`-stones
containing `p`: the reflexive-transitive closure of `stepTo`. -/
def Reach (b : Board) (pl : Player) (p q : Point) : Prop :=
  Relation.ReflTransGen (stepTo b pl) p q

/-- The group containing `p` has a liberty: some member of the group has
an empty orthogonal neighbour. -/
def Lib (b : Board) (pl : Player) (p : Point) : Prop :=
  ∃ q r, Reach b pl p q ∧ r ∈ nbrs q ∧ b.get r = some none

theorem noLibsLoop_nil (b : Board) (player : Cell) (visited : Finset ℕ)
    (conn : List Point) : noLibsLoop b player [] visited conn = conn := by
  rw [noLibsLoop.eq_def]

theorem noLibsLoop_visited {b : Board} {player : Cell} {curr : InP b.size}
    {rest : List (InP b.size)} {visited : Finset ℕ} {conn : List Point}
    (hv : idxN b.size curr.1 ∈ visited) :
    noLibsLoop b player (curr :: rest) visited conn =
      noLibsLoop b player rest visited conn := by
  rw [noLibsLoop.eq_def]
  simp only [dif_pos hv]

theorem noLibsLoop_step {b : Board} {player : Cell} {curr : InP b.size}
    {rest : List (InP b.size)} {visited : Finset ℕ} {conn : List Point}
    {oN oW oS oE : Option (InP b.size)}
    (hv : idxN b.size curr.1 ∉ visited)
    (hN : dirScan b player (1 < curr.1.y) curr.1.north = some oN)
    (hW : dirScan b player (1 < curr.1.x) curr.1.west = some oW)
    (hS : dirScan b player (curr.1.y < (b.size : ℤ)) curr.1.south = some oS)
    (hE : dirScan b player (curr.1.x < (b.size : ℤ)) curr.1.east = some oE) :
    noLibsLoop b player (curr :: rest) visited conn =
      noLibsLoop b player (pushO oE (pushO oS (pushO oW (pushO oN rest))))
        (insert (idxN b.size curr.1) visited) (conn ++ [curr.1]) := by
  rw [noLibsLoop.eq_def]
  simp only [dif_neg hv, hN, hW, hS, hE]

theorem noLibsLoop_libN {b : Board} {player : Cell} {curr : InP b.size}
    {rest : List (InP b.size)} {visited : Finset ℕ} {conn : List Point}
    (hv : idxN b.size curr.1 ∉ visited)
    (hN : dirScan b player (1 < curr.1.y) curr.1.north = none) :
    noLibsLoop b player (curr :: rest) visited conn = [] := by
  rw [noLibsLoop.eq_def]
  simp only [dif_neg hv, hN]

theorem noLibsLoop_libW {b : Board} {player : Cell} {curr : InP b.size}
    {rest : List (InP b.size)} {visited : Finset ℕ} {conn : List Point}
    {oN : Option (InP b.size)}
    (hv : idxN b.size curr.1 ∉ visited)
    (hN : dirScan b player (1 < curr.1.y) curr.1.north = some oN)
    (hW : dirScan b player (1 < curr.1.x) curr.1.west = none) :
    noLibsLoop b player (curr :: rest) visited conn = [] := by
  rw [noLibsLoop.eq_def]
  simp only [dif_neg hv, hN, hW]

theorem noLibsLoop_libS {b : Board} {player : Cell} {curr : InP b.size}
    {rest : List (InP b.size)} {visited : Finset ℕ} {conn : List Point}
    {oN oW : Option (InP b.size)}
    (hv : idxN b.size curr.1 ∉ visited)
    (hN : dirScan b player (1 < curr.1.y) curr.1.north = some oN)
    (hW : dirScan b player (1 < curr.1.x) curr.1.west = some oW)
    (hS : dirScan b player (curr.1.y < (b.size : ℤ)) curr.1.south = none) :
    noLibsLoop b player (curr :: rest) visited conn = [] := by
  rw [noLibsLoop.eq_def]
  simp only [dif_neg hv, hN, hW, hS]

theorem noLibsLoop_libE {b : Board} {player : Cell} {curr : InP b.size}
    {rest : List (InP b.size)} {visited : Finset ℕ} {conn : List Point}
    {oN oW oS : Option (InP b.size)}
    (hv : idxN b.size curr.1 ∉ visited)
    (hN : dirScan b player (1 < curr.1.y) curr.1.north = some oN)
    (hW : dirScan b player (1 < curr.1.x) curr.1.west = some oW)
    (hS : dirScan b player (curr.1.y < (b.size : ℤ)) curr.1.south = some oS)
    (hE : dirScan b player (curr.1.x < (b.size : ℤ)) curr.1.east = none) :
    noLibsLoop b player (curr :: rest) visited conn = [] := by
  rw [noLibsLoop.eq_def]
  simp only [dif_neg hv, hN, hW, hS, hE]

theorem dirScan_eq_none {b : Board} {player : Cell} {g : Prop} [Decidable g]
    {np : Point} (h : dirScan b player g np = none) :
    g ∧ b.get np = some none := by
  unfold dirScan at h
  split at h
  · rename_i hg
    refine ⟨hg, ?_⟩
    split at h
    · assumption
    · split at h <;> exact Option.noConfusion h
  · exact Option.noConfusion h

theorem mem_pushO {sz : ℕ} {o : Option (InP sz)} {st : List (InP sz)}
    {s : InP sz} : s ∈ pushO o st ↔ o = some s ∨ s ∈ st := by
  cases o <;> simp [pushO, eq_comm]

theorem pushO_mono {sz : ℕ} {o : Option (InP sz)} {st : List (InP sz)}
    {s : InP sz} (h : s ∈ st) : s ∈ pushO o st :=
  mem_pushO.2 (Or.inr h)

theorem dirScan_facts {b : Board} {player : Cell} {g : Prop} [Decidable g]
    {np : Point} {o : Option (InP b.size)}
    (h : dirScan b player g np = some o) (hbound : ¬g → ¬InBsz b.size np) :
    b.get np ≠ some none ∧
    (b.get np = some player → ∃ q : InP b.size, o = some q ∧ q.1 = np) ∧
    (∀ q : InP b.size, o = some q → q.1 = np ∧ b.get np = some player) := by
  unfold dirScan at h
  split at h
  · rename_i hg
    split at h
    · exact Option.noConfusion h
    · rename_i hnn
      split at h
      · rename_i hpl
        refine ⟨hnn, fun _ => ⟨⟨np, inB_of_get hpl⟩, ?_, rfl⟩, ?_⟩
        · exact (Option.some_inj.1 h).symm
        · intro q hq
          rw [← Option.some_inj.1 h] at hq
          exact ⟨congrArg Subtype.val (Option.some_inj.1 hq).symm, hpl⟩
      · rename_i hpl
        refine ⟨hnn, fun hc => absurd hc hpl, ?_⟩
        intro q hq
        rw [← Option.some_inj.1 h] at hq
        exact absurd hq (by simp)
  · rename_i hg
    have hnb := hbound hg
    have hget : b.get np = none := get_eq_none_iff.2 hnb
    refine ⟨by rw [hget]; simp, fun hc => absurd (inB_of_get hc) hnb, ?_⟩
    intro q hq
    rw [← Option.some_inj.1 h] at hq
    exact absurd hq (by simp)

theorem north_not_inB {sz : ℕ} {q : Point} (h : ¬1 < q.y) :
    ¬InBsz sz q.north := by
  unfold InBsz Point.north
  dsimp only
  omega

theorem west_not_inB {sz : ℕ} {q : Point} (h : ¬1 < q.x) :
    ¬InBsz sz q.west := by
  unfold InBsz Point.west
  dsimp only
  omega

theorem south_not_inB {sz : ℕ} {q : Point} (hin : InBsz sz q)
    (h : ¬q.y < (sz : ℤ)) : ¬InBsz sz q.south := by
  obtain ⟨h1, h2, h3, h4⟩ := hin
  unfold InBsz Point.south
  dsimp only
  omega

theorem east_not_inB {sz : ℕ} {q : Point} (hin : InBsz sz q)
    (h : ¬q.x < (sz : ℤ)) : ¬InBsz sz q.east := by
  obtain ⟨h1, h2, h3, h4⟩ := hin
  unfold InBsz Point.east
  dsimp only
  omega

/-- Invariant of the `noLibs` loop relative to the root stone `p`:
stacked points are reachable stones; `conn` lists the visited points,
without duplicates, and every already-scanned stone has no empty
neighbour and has all its same-player neighbours visited or stacked. -/
structure LoopInv (b : Board) (pl : Player) (p : Point)
    (stack : List (InP b.size)) (visited : Finset ℕ) (conn : List Point) :
    Prop where
  stackOK : ∀ s ∈ stack, stone b pl s.1 ∧ Reach b pl p s.1
  connOK : ∀ q ∈ conn, InBsz b.size q ∧ stone b pl q ∧ Reach b pl p q
  connNodup : conn.Nodup
  connVis : ∀ q : Point, q ∈ conn ↔ InBsz b.size q ∧ idxN b.size q ∈ visited
  closure : ∀ q ∈ conn, ∀ r ∈ nbrs q, b.get r ≠ some none ∧
    (stone b pl r → (InBsz b.size r ∧ idxN b.size r ∈ visited) ∨
      ∃ s ∈ stack, s.1 = r)
  root : (∃ s ∈ stack, s.1 = p) ∨ p ∈ conn

/-- What holds of a nonempty loop result: a duplicate-free list of
reachable stones of the group of `p` that covers `conn` and the stack and
is closed under same-player adjacency, with no empty neighbour anywhere. -/
def LoopPost (b : Board) (pl : Player) (p : Point)
    (stack : List (InP b.size)) (conn res : List Point) : Prop :=
  (∀ q ∈ res, InBsz b.size q ∧ stone b pl q ∧ Reach b pl p q) ∧
  res.Nodup ∧
  (∀ q ∈ conn, q ∈ res) ∧
  (∀ s ∈ stack, s.1 ∈ res) ∧
  (∀ q ∈ res, ∀ r ∈ nbrs q, b.get r ≠ some none ∧
    (stone b pl r → r ∈ res))

theorem noLibsLoop_main (b : Board) (pl : Player) (p : Point) :
    ∀ (stack : List (InP b.size)) (visited : Finset ℕ) (conn : List Point),
    LoopInv b pl p stack visited conn →
    (noLibsLoop b (some pl) stack visited conn = [] →
      Lib b pl p ∨ (conn = [] ∧ ∀ s ∈ stack, idxN b.size s.1 ∈ visited)) ∧
    (noLibsLoop b (some pl) stack visited conn ≠ [] →
      LoopPost b pl p stack conn (noLibsLoop b (some pl) stack visited conn)) := by
  intro stack visited conn
  induction stack, visited, conn using noLibsLoop.induct b (some pl) with
  | case1 visited conn =>
    intro hinv
    rw [noLibsLoop_nil]
    constructor
    · intro hc
      exact Or.inr ⟨hc, by simp⟩
    · intro _
      refine ⟨hinv.connOK, hinv.connNodup, fun q hq => hq, by simp, ?_⟩
      intro q hq r hr
      obtain ⟨h1, h2⟩ := hinv.closure q hq r hr
      refine ⟨h1, fun hst => ?_⟩
      rcases h2 hst with ⟨hrin, hrv⟩ | ⟨s, hs, _⟩
      · exact (hinv.connVis r).2 ⟨hrin, hrv⟩
      · simp at hs
  | case2 curr rest visited conn hv ih =>
    intro hinv
    have hcm : curr.1 ∈ conn := (hinv.connVis curr.1).2 ⟨curr.2, hv⟩
    have hinv' : LoopInv b pl p rest visited conn := by
      refine ⟨fun s hs => hinv.stackOK s (List.mem_cons_of_mem _ hs),
        hinv.connOK, hinv.connNodup, hinv.connVis, ?_, ?_⟩
      · intro q hq r hr
        obtain ⟨h1, h2⟩ := hinv.closure q hq r hr
        refine ⟨h1, fun hst => ?_⟩
        rcases h2 hst with hl | ⟨s, hs, hseq⟩
        · exact Or.inl hl
        · rcases List.mem_cons.1 hs with heq | hs'
          · rw [← hseq, heq]
            exact Or.inl ⟨curr.2, hv⟩
          · exact Or.inr ⟨s, hs', hseq⟩
      · rcases hinv.root with ⟨s, hs, hsp⟩ | hc
        · rcases List.mem_cons.1 hs with heq | hs'
          · rw [← hsp, heq]
            exact Or.inr hcm
          · exact Or.inl ⟨s, hs', hsp⟩
        · exact Or.inr hc
    rw [noLibsLoop_visited hv]
    obtain ⟨c1, c2⟩ := ih hinv'
    constructor
    · intro hc
      rcases c1 hc with hl | ⟨hconn, hall⟩
      · exact Or.inl hl
      · refine Or.inr ⟨hconn, ?_⟩
        intro s hs
        rcases List.mem_cons.1 hs with rfl | hs'
        · exact hv
        · exact hall s hs'
    · intro hne
      obtain ⟨p1, p2, p3, p4, p5⟩ := c2 hne
      refine ⟨p1, p2, p3, ?_, p5⟩
      intro s hs
      rcases List.mem_cons.1 hs with heq | hs'
      · rw [heq]
        exact p3 curr.1 hcm
      · exact p4 s hs'
  | case3 curr rest visited conn hv hN =>
    intro hinv
    rw [noLibsLoop_libN hv hN]
    refine ⟨fun _ => Or.inl ?_, fun hne => absurd rfl hne⟩
    obtain ⟨hg, hempty⟩ := dirScan_eq_none hN
    exact ⟨curr.1, curr.1.north,
      (hinv.stackOK curr (List.mem_cons_self _ _)).2, by simp [nbrs], hempty⟩
  | case4 curr rest visited conn hv oN hN hW =>
    intro hinv
    rw [noLibsLoop_libW hv hN hW]
    refine ⟨fun _ => Or.inl ?_, fun hne => absurd rfl hne⟩
    obtain ⟨hg, hempty⟩ := dirScan_eq_none hW
    exact ⟨curr.1, curr.1.west,
      (hinv.stackOK curr (List.mem_cons_self _ _)).2, by simp [nbrs], hempty⟩
  | case5 curr rest visited conn hv oN hN oW hW hS =>
    intro hinv
    rw [noLibsLoop_libS hv hN hW hS]
    refine ⟨fun _ => Or.inl ?_, fun hne => absurd rfl hne⟩
    obtain ⟨hg, hempty⟩ := dirScan_eq_none hS
    exact ⟨curr.1, curr.1.south,
      (hinv.stackOK curr (List.mem_cons_self _ _)).2, by simp [nbrs], hempty⟩
  | case6 curr rest visited conn hv oN hN oW hW oS hS hE =>
    intro hinv
    rw [noLibsLoop_libE hv hN hW hS hE]
    refine ⟨fun _ => Or.inl ?_, fun hne => absurd rfl hne⟩
    obtain ⟨hg, hempty⟩ := dirScan_eq_none hE
    exact ⟨curr.1, curr.1.east,
      (hinv.stackOK curr (List.mem_cons_self _ _)).2, by simp [nbrs], hempty⟩
  | case7 curr rest visited conn hv oN hN oW hW oS hS oE hE ih =>
    intro hinv
    have hcs : stone b pl curr.1 ∧ Reach b pl p curr.1 :=
      hinv.stackOK curr (List.mem_cons_self _ _)
    have hcnot : curr.1 ∉ conn := fun hc => hv ((hinv.connVis curr.1).1 hc).2
    have fN := dirScan_facts hN (fun hg => north_not_inB hg)
    have fW := dirScan_facts hW (fun hg => west_not_inB hg)
    have fS := dirScan_facts hS (fun hg => south_not_inB curr.2 hg)
    have fE := dirScan_facts hE (fun hg => east_not_inB curr.2 hg)
    have hmemns : ∀ s : InP b.size,
        s ∈ pushO oE (pushO oS (pushO oW (pushO oN rest))) ↔
        (oN = some s ∨ oW = some s ∨ oS = some s ∨ oE = some s ∨ s ∈ rest) := by
      intro s
      simp only [mem_pushO]
      clear ih hinv fN fW fS fE hN hW hS hE
      tauto
    have hrestsub : ∀ s ∈ rest, s ∈ pushO oE (pushO oS (pushO oW (pushO oN rest))) :=
      fun s hs => (hmemns s).2 (Or.inr (Or.inr (Or.inr (Or.inr hs))))
    have hinv' : LoopInv b pl p (pushO oE (pushO oS (pushO oW (pushO oN rest))))
        (insert (idxN b.size curr.1) visited) (conn ++ [curr.1]) := by
      refine ⟨?_, ?_, ?_, ?_, ?_, ?_⟩
      · intro s hs
        rcases (hmemns s).1 hs with h | h | h | h | h
        · obtain ⟨hq, hst⟩ := fN.2.2 s h
          have hstone : stone b pl s.1 := by unfold stone; rw [hq]; exact hst
          exact ⟨hstone, Relation.ReflTransGen.tail hcs.2
            ⟨by rw [hq]; simp [nbrs], hstone⟩⟩
        · obtain ⟨hq, hst⟩ := fW.2.2 s h
          have hstone : stone b pl s.1 := by unfold stone; rw [hq]; exact hst
          exact ⟨hstone, Relation.ReflTransGen.tail hcs.2
            ⟨by rw [hq]; simp [nbrs], hstone⟩⟩
        · obtain ⟨hq, hst⟩ := fS.2.2 s h
          have hstone : stone b pl s.1 := by unfold stone; rw [hq]; exact hst
          exact ⟨hstone, Relation.ReflTransGen.tail hcs.2
            ⟨by rw [hq]; simp [nbrs], hstone⟩⟩
        · obtain ⟨hq, hst⟩ := fE.2.2 s h
          have hstone : stone b pl s.1 := by unfold stone; rw [hq]; exact hst
          exact ⟨hstone, Relation.ReflTransGen.tail hcs.2
            ⟨by rw [hq]; simp [nbrs], hstone⟩⟩
        · exact hinv.stackOK s (List.mem_cons_of_mem _ h)
      · intro q hq
        rcases List.mem_append.1 hq with hql | hqr
        · exact hinv.connOK q hql
        · rw [List.mem_singleton.1 hqr]
          exact ⟨curr.2, hcs.1, hcs.2⟩
      · exact List.nodup_append.2 ⟨hinv.connNodup, List.nodup_singleton _,
          fun a ha hb => hcnot (by rw [List.mem_singleton.1 hb] at ha; exact ha)⟩
      · intro q
        constructor
        · intro hq
          rcases List.mem_append.1 hq with hql | hqr
          · obtain ⟨h1, h2⟩ := (hinv.connVis q).1 hql
            exact ⟨h1, Finset.mem_insert_of_mem h2⟩
          · rw [List.mem_singleton.1 hqr]
            exact ⟨curr.2, Finset.mem_insert_self _ _⟩
        · rintro ⟨h1, h2⟩
          rcases Finset.mem_insert.1 h2 with heq | hmem
          · have : q = curr.1 := idxN_inj h1 curr.2 heq
            exact List.mem_append_right _ (by simp [this])
          · exact List.mem_append_left _ ((hinv.connVis q).2 ⟨h1, hmem⟩)
      · intro q hq r hr
        rcases List.mem_append.1 hq with hql | hqr
        · obtain ⟨h1, h2⟩ := hinv.closure q hql r hr
          refine ⟨h1, fun hst => ?_⟩
          rcases h2 hst with ⟨hrin, hrv⟩ | ⟨s, hs, hseq⟩
          · exact Or.inl ⟨hrin, Finset.mem_insert_of_mem hrv⟩
          · rcases List.mem_cons.1 hs with heq | hs'
            · rw [← hseq, heq]
              exact Or.inl ⟨curr.2, Finset.mem_insert_self _ _⟩
            · exact Or.inr ⟨s, hrestsub s hs', hseq⟩
        · rw [List.mem_singleton.1 hqr] at hr
          simp only [nbrs, List.mem_cons, List.mem_singleton] at hr
          rcases hr with rfl | rfl | rfl | (rfl | hf)
          · refine ⟨fN.1, fun hst => Or.inr ?_⟩
            obtain ⟨q', hq', hq'eq⟩ := fN.2.1 hst
            exact ⟨q', (hmemns q').2 (Or.inl hq'), hq'eq⟩
          · refine ⟨fW.1, fun hst => Or.inr ?_⟩
            obtain ⟨q', hq', hq'eq⟩ := fW.2.1 hst
            exact ⟨q', (hmemns q').2 (Or.inr (Or.inl hq')), hq'eq⟩
          · refine ⟨fS.1, fun hst => Or.inr ?_⟩
            obtain ⟨q', hq', hq'eq⟩ := fS.2.1 hst
            exact ⟨q', (hmemns q').2 (Or.inr (Or.inr (Or.inl hq'))), hq'eq⟩
          · refine ⟨fE.1, fun hst => Or.inr ?_⟩
            obtain ⟨q', hq', hq'eq⟩ := fE.2.1 hst
            exact ⟨q', (hmemns q').2 (Or.inr (Or.inr (Or.inr (Or.inl hq')))), hq'eq⟩
          · exact absurd hf (List.not_mem_nil _)
      · rcases hinv.root with ⟨s, hs, hsp⟩ | hc
        · rcases List.mem_cons.1 hs with heq | hs'
          · rw [← hsp, heq]
            exact Or.inr (List.mem_append_right _ (by simp))
          · exact Or.inl ⟨s, hrestsub s hs', hsp⟩
        · exact Or.inr (List.mem_append_left _ hc)
    rw [noLibsLoop_step hv hN hW hS hE]
    obtain ⟨c1, c2⟩ := ih hinv'
    constructor
    · intro hc
      rcases c1 hc with hl | ⟨hconn, _⟩
      · exact Or.inl hl
      · exact absurd hconn (by simp)
    · intro hne
      obtain ⟨p1, p2, p3, p4, p5⟩ := c2 hne
      refine ⟨p1, p2, fun q hq => p3 q (List.mem_append_left _ hq), ?_, p5⟩
      intro s hs
      rcases List.mem_cons.1 hs with heq | hs'
      · rw [heq]
        exact p3 curr.1 (List.mem_append_right _ (by simp))
      · exact p4 s (hrestsub s hs')

theorem reach_subset_of_post {b : Board} {pl : Player} {p : Point}
    {stack : List (InP b.size)} {conn res : List Point}
    (hpost : LoopPost b pl p stack conn res) (hproot : p ∈ res) :
    ∀ q, Reach b pl p q → q ∈ res := by
  intro q hq
  induction hq with
  | refl => exact hproot
  | tail _ hstep ih => exact (hpost.2.2.2.2 _ ih _ hstep.1).2 hstep.2

/-- Correctness of `noLibs` on a stone: the result is empty exactly when
the group of `p` has a liberty, and a nonempty result enumerates the
maximal connected group of `p`, each member exactly once. -/
theorem noLibs_correct {b : Board} {pl : Player} {p : Point}
    (hp : b.get p = some (some pl)) :
    (b.noLibs p = [] ↔ Lib b pl p) ∧
    (b.noLibs p ≠ [] →
      (∀ q, q ∈ b.noLibs p ↔ Reach b pl p q) ∧ (b.noLibs p).Nodup ∧
        ¬Lib b pl p) := by
  have hin : InBsz b.size p := inB_of_get hp
  have hcell : b.state.getD (idxN b.size p) none = some pl :=
    Option.some_inj.1 ((get_eq_of_inB hin).symm.trans hp)
  have hrun : b.noLibs p = noLibsLoop b (some pl) [⟨p, hin⟩] ∅ [] := by
    unfold Board.noLibs
    rw [dif_pos hin, hcell]
  have hinv0 : LoopInv b pl p [⟨p, hin⟩] ∅ [] := by
    refine ⟨?_, by simp, by simp, by intro q; simp, by simp, ?_⟩
    · intro s hs
      rw [List.mem_singleton.1 hs]
      exact ⟨hp, Relation.ReflTransGen.refl⟩
    · exact Or.inl ⟨⟨p, hin⟩, by simp, rfl⟩
  obtain ⟨m1, m2⟩ := noLibsLoop_main b pl p _ _ _ hinv0
  rw [← hrun] at m1 m2
  have hfromPost : b.noLibs p ≠ [] →
      (∀ q, q ∈ b.noLibs p ↔ Reach b pl p q) ∧ (b.noLibs p).Nodup ∧
        ¬Lib b pl p := by
    intro hne
    obtain post := m2 hne
    have hpin : p ∈ b.noLibs p := post.2.2.2.1 ⟨p, hin⟩ (by simp)
    refine ⟨?_, post.2.1, ?_⟩
    · intro q
      exact ⟨fun hq => (post.1 q hq).2.2,
        fun hr => reach_subset_of_post post hpin q hr⟩
    · rintro ⟨q, r, hreach, hr, hempty⟩
      have hq := reach_subset_of_post post hpin q hreach
      exact (post.2.2.2.2 q hq r hr).1 hempty
  refine ⟨⟨?_, ?_⟩, hfromPost⟩
  · intro h
    rcases m1 h with hl | ⟨_, hall⟩
    · exact hl
    · exact absurd (hall ⟨p, hin⟩ (by simp)) (by simp)
  · intro hlib
    by_contra hne
    exact (hfromPost hne).2.2 hlib

/-- C6: for an in-bounds position occupied by a player, `noLibs` returns
the empty set iff the maximal orthogonally connected same-player group
containing the position has at least one liberty; otherwise it returns
exactly the members of that maximal group, each exactly once. -/
theorem spec_C6 (b : Board) (pl : Player) (p : Point)
    (hp : b.get p = some (some pl)) :
    (b.noLibs p = [] ↔ Lib b pl p) ∧
    (¬Lib b pl p →
      (∀ q, q ∈ b.noLibs p ↔ Reach b pl p q) ∧ (b.noLibs p).Nodup) := by
  obtain ⟨h1, h2⟩ := noLibs_correct hp
  refine ⟨h1, fun hnl => ?_⟩
  have hne : b.noLibs p ≠ [] := fun hc => hnl (h1.1 hc)
  obtain ⟨g1, g2, _⟩ := h2 hne
  exact ⟨g1, g2⟩

/-- C6 witness: instantiation at a lone black stone on a 1×1 board. -/
theorem spec_C6_witness :
    (Board.mk 1 [some Player.B]).get ⟨1, 1⟩ = some (some Player.B) ∧
    (((Board.mk 1 [some Player.B]).noLibs ⟨1, 1⟩ = [] ↔
      Lib (Board.mk 1 [some Player.B]) Player.B ⟨1, 1⟩) ∧
    (¬Lib (Board.mk 1 [some Player.B]) Player.B ⟨1, 1⟩ →
      (∀ q, q ∈ (Board.mk 1 [some Player.B]).noLibs ⟨1, 1⟩ ↔
        Reach (Board.mk 1 [some Player.B]) Player.B ⟨1, 1⟩ q) ∧
      ((Board.mk 1 [some Player.B]).noLibs ⟨1, 1⟩).Nodup)) :=
  ⟨by decide, spec_C6 _ _ _ (by decide)⟩

/-- JS loose inequality `!=` between `get` results: `undefined` (`none`)
and `null` (`some none`) are loosely equal, all other pairs compare as
with strict equality. -/
def looseNe (a c : Option Cell) : Prop :=
  ¬(a = c ∨ (a = none ∧ c = some none) ∨ (a = some none ∧ c = none))

instance (a c : Option Cell) : Decidable (looseNe a c) := by
  unfold looseNe; infer_instance

/-- Candidate condition of JS `Board.capture` for one neighbour:
`pv !== null && pv != player`. -/
def capCand (b : Board) (player : Option Cell) (np : Point) : Prop :=
  b.get np ≠ some none ∧ looseNe (b.get np) player

instance (b : Board) (player : Option Cell) (np : Point) :
    Decidable (capCand b player np) := by
  unfold capCand; infer_instance

/-- The `res` array of JS `Board.capture` before the `map`/`reduce`: the
neighbours pushed by the four guarded scans, in source order north, west,
south, east, with `player = this.get(p)`. -/
def capCands (b : Board) (p : Point) : List Point :=
  (if 1 < p.y ∧ capCand b (b.get p) p.north then [p.north] else []) ++
  (if 1 < p.x ∧ capCand b (b.get p) p.west then [p.west] else []) ++
  (if p.y < (b.size : ℤ) ∧ capCand b (b.get p) p.south then [p.south] else []) ++
  (if p.x < (b.size : ℤ) ∧ capCand b (b.get p) p.east then [p.east] else [])

/-- JS `Board.capture`: map `noLibs` over the candidate neighbours and
concatenate everything with `reduce`/`concat`. -/
def Board.capture (b : Board) (p : Point) : List Point :=
  ((capCands b p).map fun x => b.noLibs x).foldl (fun acc curr => acc ++ curr) []

/-- JS `Mode` enumeration. -/
inductive Mode where
  | PLAY
  | EDIT
deriving DecidableEq

/-- JS `Edit` enumeration. -/
inductive Edit where
  | ADD
  | SUB
deriving DecidableEq

/-- A move record `{player, p, captured}` as pushed by the click handler. -/
structure Move where
  player : Player
  p : Point
  captured : List Point
deriving DecidableEq

/-- JS `class Game` engine state.  The `captured` object indexed by player
becomes the two fields `capturedB`/`capturedW`; `Controls` holds only
widget state and is omitted.  In both stacks the list head is the top
(most recently pushed element) of the JS array. -/
structure Game where
  mode : Mode
  editMode : Edit
  turn : Player
  board : Board
  capturedB : ℤ
  capturedW : ℤ
  undoSt : List Move
  redoSt : List Move
deriving DecidableEq

/-- JS `new Game(size, ctx)`. -/
def initGame (sz : ℕ) : Game :=
  ⟨.PLAY, .ADD, .B, mkBoard sz, 0, 0, [], []⟩

/-- Read the capture tally of a player (JS `this.captured[player]`). -/
def Game.tally (g : Game) : Player → ℤ
  | .B => g.capturedB
  | .W => g.capturedW

/-- Write the capture tally of a player. -/
def Game.setTally (g : Game) : Player → ℤ → Game
  | .B, n => { g with capturedB := n }
  | .W, n => { g with capturedW := n }

/-- JS `Game.redo`: no-op on an empty `redoSt`; otherwise pop the move,
place its stone, and for each captured position erase the stone and
increment the mover's tally (the `forEach` body), then push the move onto
`undoSt` and toggle the turn with `nextTurn`.  Button and display updates
carry no engine state. -/
def Game.redo (g : Game) : Game :=
  match g.redoSt with
  | [] => g
  | mv :: rest =>
    let b1 := (g.board.set mv.p (some mv.player)).1
    let st := mv.captured.foldl
      (fun (acc : Board × ℤ) cp => ((acc.1.set cp none).1, acc.2 + 1))
      (b1, g.tally mv.player)
    { g.setTally mv.player st.2 with
      board := st.1, undoSt := mv :: g.undoSt, redoSt := rest,
      turn := g.turn.other }

/-- JS `Game.undo`: no-op on an empty `undoSt`; otherwise pop the move,
clear its position, and for each captured position restore an enemy stone
and decrement the mover's tally, then push the move onto `redoSt` and
toggle the turn. -/
def Game.undo (g : Game) : Game :=
  match g.undoSt with
  | [] => g
  | mv :: rest =>
    let b1 := (g.board.set mv.p none).1
    let enemy := mv.player.other
    let st := mv.captured.foldl
      (fun (acc : Board × ℤ) cp => ((acc.1.set cp (some enemy)).1, acc.2 - 1))
      (b1, g.tally mv.player)
    { g.setTally mv.player st.2 with
      board := st.1, undoSt := rest, redoSt := mv :: g.redoSt,
      turn := g.turn.other }

/-- JS `Game.clearHist` (the button-state calls carry no engine state). -/
def Game.clearHist (g : Game) : Game :=
  { g with undoSt := [], redoSt := [] }

/-- The ko condition of the click handler: the new move captured exactly
one stone, `undoSt` is nonempty, its top also captured exactly one stone,
and the two single positions cross-match coordinatewise.  The JS spreads
this over two nested `if`s; a proposal falls through to acceptance
exactly when this combined condition is false. -/
def koHit (undoSt : List Move) (p : Point) (captured : List Point) : Bool :=
  match captured, undoSt with
  | [cp], lm :: _ =>
    match lm.captured with
    | [lcp] => p.x == lcp.x && p.y == lcp.y && cp.x == lm.p.x && cp.y == lm.p.y
    | _ => false
  | _, _ => false

/-- Branch labels for the play-mode part of the canvas click handler.
The JS returns no value; the labels name which branch ran. -/
inductive PlayResult where
  | offBoard
  | occupied
  | suicide
  | ko
  | accepted (captured : List Point)
deriving DecidableEq

/-- The board after the tentative placement `game.board.set(p, game.turn)`. -/
def Game.placed (g : Game) (p : Point) : Board :=
  (g.board.set p (some g.turn)).1

/-- The play-mode branch of the JS canvas click handler: occupancy test
(`get(p) === null`, which also rejects out-of-bounds clicks since those
give `undefined`), tentative placement, capture computation, suicide
check, ko check; on success `redoSt = []; redoSt.push(move); redo()`. -/
def Game.playMove (g : Game) (p : Point) : Game × PlayResult :=
  match g.board.get p with
  | some none =>
    let b1 := g.placed p
    let captured := b1.capture p
    if captured.length = 0 ∧ (b1.noLibs p).length ≠ 0 then
      ({ g with board := (b1.set p none).1 }, .suicide)
    else if koHit g.undoSt p captured then
      ({ g with board := (b1.set p none).1 }, .ko)
    else
      (({ g with board := b1, redoSt := [⟨g.turn, p, captured⟩] }).redo,
        .accepted captured)
  | some (some _) => (g, .occupied)
  | none => (g, .offBoard)

/-- The edit-mode branch of the canvas click handler: place or remove a
stone with no legality check, then `clearHist()`. -/
def Game.editClick (g : Game) (p : Point) : Game :=
  (match g.editMode with
   | .ADD => { g with board := (g.board.set p (some g.turn)).1 }
   | .SUB => { g with board := (g.board.set p none).1 }).clearHist

/-- The full canvas click handler, dispatching on the mode. -/
def Game.canvasClick (g : Game) (p : Point) : Game :=
  match g.mode with
  | .PLAY => (g.playMove p).1
  | .EDIT => g.editClick p

/-- Click on the turn display: in edit mode it swaps whose turn it is. -/
def Game.displayClick (g : Game) : Game :=
  match g.mode with
  | .EDIT => { g with turn := g.turn.other }
  | .PLAY => g

/-- The mode button toggles between play and edit mode. -/
def Game.modeClick (g : Game) : Game :=
  match g.mode with
  | .PLAY => { g with mode := .EDIT }
  | .EDIT => { g with mode := .PLAY }

/-- The add/remove button toggles the edit submode. -/
def Game.addpClick (g : Game) : Game :=
  match g.editMode with
  | .ADD => { g with editMode := .SUB }
  | .SUB => { g with editMode := .ADD }

/-- The `+b` button. -/
def Game.bpClick (g : Game) : Game :=
  { g with capturedB := g.capturedB + 1 }

/-- The `-b` button (guarded to keep the tally nonnegative). -/
def Game.bmClick (g : Game) : Game :=
  if g.capturedB > 0 then { g with capturedB := g.capturedB - 1 } else g

/-- The `+w` button. -/
def Game.wpClick (g : Game) : Game :=
  { g with capturedW := g.capturedW + 1 }

/-- The `-w` button (guarded to keep the tally nonnegative). -/
def Game.wmClick (g : Game) : Game :=
  if g.capturedW > 0 then { g with capturedW := g.capturedW - 1 } else g

theorem mem_foldl_append {α : Type _} {x : α} :
    ∀ (ls : List (List α)) (acc : List α),
    x ∈ ls.foldl (fun a c => a ++ c) acc ↔ x ∈ acc ∨ ∃ l ∈ ls, x ∈ l := by
  intro ls
  induction ls with
  | nil => simp
  | cons hd tl ih =>
    intro acc
    rw [List.foldl_cons, ih]
    simp only [List.mem_append, List.mem_cons]
    constructor
    · rintro ((h | h) | ⟨l, hl, hx⟩)
      · exact Or.inl h
      · exact Or.inr ⟨hd, Or.inl rfl, h⟩
      · exact Or.inr ⟨l, Or.inr hl, hx⟩
    · rintro (h | ⟨l, hl | hl, hx⟩)
      · exact Or.inl (Or.inl h)
      · exact Or.inl (Or.inr (hl ▸ hx))
      · exact Or.inr ⟨l, hl, hx⟩

theorem mem_capture_iff {b : Board} {p x : Point} :
    x ∈ b.capture p ↔ ∃ np ∈ capCands b p, x ∈ b.noLibs np := by
  unfold Board.capture
  rw [mem_foldl_append]
  simp only [List.not_mem_nil, false_or, List.mem_map]
  constructor
  · rintro ⟨l, ⟨np, hnp, rfl⟩, hx⟩
    exact ⟨np, hnp, hx⟩
  · rintro ⟨np, hnp, hx⟩
    exact ⟨b.noLibs np, ⟨np, hnp, rfl⟩, hx⟩

theorem mem_capCands {b : Board} {p np : Point} :
    np ∈ capCands b p ↔
      ((1 < p.y ∧ capCand b (b.get p) p.north) ∧ np = p.north) ∨
      ((1 < p.x ∧ capCand b (b.get p) p.west) ∧ np = p.west) ∨
      ((p.y < (b.size : ℤ) ∧ capCand b (b.get p) p.south) ∧ np = p.south) ∨
      ((p.x < (b.size : ℤ) ∧ capCand b (b.get p) p.east) ∧ np = p.east) := by
  unfold capCands
  split_ifs with h1 h2 h3 h4 <;> simp_all <;> tauto

theorem north_inB {sz : ℕ} {p : Point} (h : InBsz sz p) (hg : 1 < p.y) :
    InBsz sz p.north := by
  obtain ⟨h1, h2, h3, h4⟩ := h
  exact ⟨h1, h2, by unfold Point.north; dsimp only; omega,
    by unfold Point.north; dsimp only; omega⟩

theorem west_inB {sz : ℕ} {p : Point} (h : InBsz sz p) (hg : 1 < p.x) :
    InBsz sz p.west := by
  obtain ⟨h1, h2, h3, h4⟩ := h
  exact ⟨by unfold Point.west; dsimp only; omega,
    by unfold Point.west; dsimp only; omega, h3, h4⟩

theorem south_inB {sz : ℕ} {p : Point} (h : InBsz sz p)
    (hg : p.y < (sz : ℤ)) : InBsz sz p.south := by
  obtain ⟨h1, h2, h3, h4⟩ := h
  exact ⟨h1, h2, by unfold Point.south; dsimp only; omega,
    by unfold Point.south; dsimp only; omega⟩

theorem east_inB {sz : ℕ} {p : Point} (h : InBsz sz p)
    (hg : p.x < (sz : ℤ)) : InBsz sz p.east := by
  obtain ⟨h1, h2, h3, h4⟩ := h
  exact ⟨by unfold Point.east; dsimp only; omega,
    by unfold Point.east; dsimp only; omega, h3, h4⟩

theorem opposing_of_capCand {b : Board} {pl : Player} {np : Point}
    (hp : InBsz b.size np) (hc : capCand b (some (some pl)) np) :
    b.get np = some (some pl.other) := by
  obtain ⟨hnn, hlne⟩ := hc
  rw [get_eq_of_inB hp] at hnn hlne ⊢
  unfold looseNe at hlne
  push_neg at hlne
  cases hcell : b.state.getD (idxN b.size np) none with
  | none => rw [hcell] at hnn; exact absurd rfl hnn
  | some q =>
    rw [hcell] at hlne
    have hne : q ≠ pl := fun hqe => hlne.1 (by rw [hqe])
    cases q <;> cases pl <;> simp_all [Player.other]

theorem capCands_opposing {b : Board} {pl : Player} {p np : Point}
    (hp : b.get p = some (some pl)) (hmem : np ∈ capCands b p) :
    b.get np = some (some pl.other) ∧ np ∈ nbrs p := by
  have hin : InBsz b.size p := inB_of_get hp
  rw [mem_capCands, hp] at hmem
  rcases hmem with ⟨⟨hg, hc⟩, rfl⟩ | ⟨⟨hg, hc⟩, rfl⟩ | ⟨⟨hg, hc⟩, rfl⟩ |
    ⟨⟨hg, hc⟩, rfl⟩
  · exact ⟨opposing_of_capCand (north_inB hin hg) hc, by simp [nbrs]⟩
  · exact ⟨opposing_of_capCand (west_inB hin hg) hc, by simp [nbrs]⟩
  · exact ⟨opposing_of_capCand (south_inB hin hg) hc, by simp [nbrs]⟩
  · exact ⟨opposing_of_capCand (east_inB hin hg) hc, by simp [nbrs]⟩

theorem stone_of_reach {b : Board} {pl : Player} {p q : Point}
    (hp : stone b pl p) (h : Reach b pl p q) : stone b pl q := by
  induction h with
  | refl => exact hp
  | tail _ hstep _ => exact hstep.2

/-- Every position in `capture p` holds an opposing stone (with respect to
the player of the stone at `p`). -/
theorem capture_stones {b : Board} {pl : Player} {p : Point}
    (hp : b.get p = some (some pl)) :
    ∀ cp ∈ b.capture p, b.get cp = some (some pl.other) := by
  intro cp hcp
  obtain ⟨np, hnp, hmem⟩ := mem_capture_iff.1 hcp
  obtain ⟨hopp, _⟩ := capCands_opposing hp hnp
  have hne : b.noLibs np ≠ [] := by
    intro hc
    rw [hc] at hmem
    exact List.not_mem_nil _ hmem
  have hr := ((noLibs_correct hopp).2 hne).1 cp |>.1 hmem
  exact stone_of_reach hopp hr

/-- C1 counterexample: on the full 2×2 board with a black stone at (1,1)
and white stones everywhere else, the single liberty-less white group is
adjacent to (1,1) at two neighbours, and `capture` lists each of its
three positions twice ((2,2) in particular has count 2, so the result is
not duplicate-free). -/
theorem spec_C1_counterexample :
    (Board.mk 2 [some Player.B, some Player.W, some Player.W,
        some Player.W]).get ⟨1, 1⟩ = some (some Player.B) ∧
    ¬((Board.mk 2 [some Player.B, some Player.W, some Player.W,
        some Player.W]).capture ⟨1, 1⟩).Nodup ∧
    ((Board.mk 2 [some Player.B, some Player.W, some Player.W,
        some Player.W]).capture ⟨1, 1⟩).count ⟨2, 2⟩ = 2 := by
  have hA : ((Board.mk 2 [some Player.B, some Player.W, some Player.W,
      some Player.W]).noLibs ⟨1, 2⟩) = [⟨1, 2⟩, ⟨2, 2⟩, ⟨2, 1⟩] := by
    simp [Board.noLibs, noLibsLoop.eq_def, dirScan, Board.get, idxN, InBsz,
      pushO, Point.north, Point.west, Point.south, Point.east]
  have hB : ((Board.mk 2 [some Player.B, some Player.W, some Player.W,
      some Player.W]).noLibs ⟨2, 1⟩) = [⟨2, 1⟩, ⟨2, 2⟩, ⟨1, 2⟩] := by
    simp [Board.noLibs, noLibsLoop.eq_def, dirScan, Board.get, idxN, InBsz,
      pushO, Point.north, Point.west, Point.south, Point.east]
  have hC : capCands (Board.mk 2 [some Player.B, some Player.W,
      some Player.W, some Player.W]) ⟨1, 1⟩ = [⟨1, 2⟩, ⟨2, 1⟩] := by
    simp [capCands, capCand, looseNe, Board.get, idxN, InBsz,
      Point.north, Point.west, Point.south, Point.east]
  have hcap : ((Board.mk 2 [some Player.B, some Player.W, some Player.W,
      some Player.W]).capture ⟨1, 1⟩) =
      [⟨1, 2⟩, ⟨2, 2⟩, ⟨2, 1⟩, ⟨2, 1⟩, ⟨2, 2⟩, ⟨1, 2⟩] := by
    unfold Board.capture
    rw [hC]
    simp [hA, hB]
  refine ⟨by decide, ?_, ?_⟩
  · rw [hcap]
    decide
  · rw [hcap]
    decide

/-- C1 amended: for an in-bounds `p` occupied by a player, the set of
positions in `capture p` is exactly the union of the liberty-less
opposing groups orthogonally adjacent to `p`; however a position may
occur several times in the returned list, once for every neighbour of `p`
through which its group is discovered, since the JS `reduce`/`concat`
does not deduplicate. -/
theorem spec_C1 (b : Board) (pl : Player) (p : Point)
    (hp : b.get p = some (some pl)) :
    ∀ q, q ∈ b.capture p ↔
      ∃ np ∈ nbrs p, b.get np = some (some pl.other) ∧
        ¬Lib b pl.other np ∧ Reach b pl.other np q := by
  intro q
  constructor
  · intro hq
    obtain ⟨np, hnp, hmem⟩ := mem_capture_iff.1 hq
    obtain ⟨hopp, hnb⟩ := capCands_opposing hp hnp
    have hne : b.noLibs np ≠ [] := by
      intro hc
      rw [hc] at hmem
      exact List.not_mem_nil _ hmem
    obtain ⟨hmemiff, _, hnl⟩ := (noLibs_correct hopp).2 hne
    exact ⟨np, hnb, hopp, hnl, (hmemiff q).1 hmem⟩
  · rintro ⟨np, hnb, hopp, hnl, hreach⟩
    have hinp : InBsz b.size np := inB_of_get hopp
    have hin : InBsz b.size p := inB_of_get hp
    have hcc : capCand b (some (some pl)) np := by
      refine ⟨by rw [hopp]; simp, ?_⟩
      rw [hopp]
      unfold looseNe
      push_neg
      refine ⟨?_, by simp, by simp⟩
      intro hc
      have h2 := Option.some_inj.1 (Option.some_inj.1 hc)
      cases pl <;> simp [Player.other] at h2
    have hcand : np ∈ capCands b p := by
      rw [mem_capCands, hp]
      simp only [nbrs, List.mem_cons, List.mem_singleton] at hnb
      obtain ⟨hx1, hx2, hy1, hy2⟩ := hin
      obtain ⟨hnx1, hnx2, hny1, hny2⟩ := hinp
      rcases hnb with rfl | rfl | rfl | (rfl | hf)
      · refine Or.inl ⟨⟨?_, hcc⟩, rfl⟩
        unfold Point.north at hny1
        dsimp only at hny1
        omega
      · refine Or.inr (Or.inl ⟨⟨?_, hcc⟩, rfl⟩)
        unfold Point.west at hnx1
        dsimp only at hnx1
        omega
      · refine Or.inr (Or.inr (Or.inl ⟨⟨?_, hcc⟩, rfl⟩))
        unfold Point.south at hny2
        dsimp only at hny2
        omega
      · refine Or.inr (Or.inr (Or.inr ⟨⟨?_, hcc⟩, rfl⟩))
        unfold Point.east at hnx2
        dsimp only at hnx2
        omega
      · exact absurd hf (List.not_mem_nil _)
    have hne : b.noLibs np ≠ [] := fun hc => hnl ((noLibs_correct hopp).1.1 hc)
    have hmem : q ∈ b.noLibs np := (((noLibs_correct hopp).2 hne).1 q).2 hreach
    exact mem_capture_iff.2 ⟨np, hcand, hmem⟩

/-- C1 witness: instantiation of the amended statement at a lone black
stone on a 1×1 board. -/
theorem spec_C1_witness :
    (Board.mk 1 [some Player.B]).get ⟨1, 1⟩ = some (some Player.B) ∧
    (∀ q, q ∈ (Board.mk 1 [some Player.B]).capture ⟨1, 1⟩ ↔
      ∃ np ∈ nbrs ⟨1, 1⟩,
        (Board.mk 1 [some Player.B]).get np = some (some Player.B.other) ∧
        ¬Lib (Board.mk 1 [some Player.B]) Player.B.other np ∧
        Reach (Board.mk 1 [some Player.B]) Player.B.other np q) :=
  ⟨by decide, spec_C1 _ _ _ (by decide)⟩

theorem set_eq_of_inB {b : Board} {p : Point} (v : Cell)
    (h : InBsz b.size p) :
    b.set p v = ({ b with state := b.state.set (idxN b.size p) v }, some v) := by
  obtain ⟨h1, h2, h3, h4⟩ := h
  unfold Board.set
  rw [if_neg (by omega), if_neg (by omega)]

theorem set_pair_of_not_inB {b : Board} {p : Point} (v : Cell)
    (h : ¬InBsz b.size p) : b.set p v = (b, none) := by
  unfold Board.set
  unfold InBsz at h
  push_neg at h
  by_cases h1 : p.x < 1 ∨ p.x > (b.size : ℤ)
  · rw [if_pos h1]
  · push_neg at h1
    rw [if_neg (by omega), if_pos (by omega)]

/-- C9: for every board (of size at least 1, with a well-formed grid) and
every position outside `[1,size]²` both `get` and `set` report
out-of-bounds (`undefined`) and `set` leaves the board untouched; for
every in-range position `get` returns the stored occupancy and `set`
stores the given occupancy and returns it. -/
theorem spec_C9 (b : Board) (p : Point) (v : Cell)
    (hsz : 1 ≤ b.size) (hwf : b.state.length = b.size * b.size) :
    (¬InBsz b.size p → b.get p = none ∧ b.set p v = (b, none)) ∧
    (InBsz b.size p →
      b.get p = some (b.state.getD (idxN b.size p) none) ∧
      (b.set p v).2 = some v ∧ ((b.set p v).1).get p = some v) := by
  constructor
  · intro h
    exact ⟨get_eq_none_iff.2 h, set_pair_of_not_inB v h⟩
  · intro h
    refine ⟨get_eq_of_inB h, ?_, ?_⟩
    · rw [set_eq_of_inB v h]
    · exact get_set_self v h (by rw [hwf]; exact idxN_lt h)

/-- C9 witness: instantiation on the 1×1 board at the out-of-bounds
position (0,1). -/
theorem spec_C9_witness :
    1 ≤ (mkBoard 1).size ∧
    (mkBoard 1).state.length = (mkBoard 1).size * (mkBoard 1).size ∧
    ¬InBsz (mkBoard 1).size ⟨0, 1⟩ ∧
    (mkBoard 1).get ⟨0, 1⟩ = none ∧
    (mkBoard 1).set ⟨0, 1⟩ (some Player.B) = (mkBoard 1, none) :=
  ⟨by decide, by decide, by decide,
    ((spec_C9 (mkBoard 1) ⟨0, 1⟩ (some Player.B) (by decide) (by decide)).1
      (by decide)).1,
    ((spec_C9 (mkBoard 1) ⟨0, 1⟩ (some Player.B) (by decide) (by decide)).1
      (by decide)).2⟩

theorem board_eq_of {b1 b2 : Board} (h1 : b1.size = b2.size)
    (h2 : b1.state = b2.state) : b1 = b2 := by
  cases b1
  cases b2
  simp_all

theorem set_set {b : Board} {p : Point} (v w : Cell) :
    (((b.set p v).1).set p w).1 = (b.set p w).1 := by
  by_cases h : InBsz b.size p
  · have h' : InBsz ((b.set p v).1).size p := by rw [size_set]; exact h
    have e1 := state_set_of_inB (b := b) v h
    have e2 := state_set_of_inB (b := (b.set p v).1) w h'
    have e3 := state_set_of_inB (b := b) w h
    apply board_eq_of
    · rw [size_set, size_set, size_set]
    · rw [e2, e1, e3, size_set, List.set_set]
  · rw [set_of_not_inB v h]

/-- Game record with the same board is the same game. -/
theorem game_board_self (g : Game) : { g with board := g.board } = g := by
  cases g
  rfl

/-- The board effect of replaying a move (the board part of `Game.redo`):
place the stone, then clear each captured position in order. -/
def applyB (b : Board) (mv : Move) : Board :=
  mv.captured.foldl (fun bb cp => (bb.set cp none).1)
    ((b.set mv.p (some mv.player)).1)

/-- The board effect of undoing a move (the board part of `Game.undo`):
clear the position, then restore an enemy stone at each captured
position in order. -/
def undoB (b : Board) (mv : Move) : Board :=
  mv.captured.foldl (fun bb cp => (bb.set cp (some mv.player.other)).1)
    ((b.set mv.p none).1)

theorem redo_fold (l : List Point) (b : Board) (t : ℤ) :
    l.foldl (fun (acc : Board × ℤ) cp => ((acc.1.set cp none).1, acc.2 + 1))
      (b, t) =
    (l.foldl (fun bb cp => (bb.set cp none).1) b, t + l.length) := by
  induction l generalizing b t with
  | nil => simp
  | cons hd tl ih =>
    rw [List.foldl_cons, List.foldl_cons, ih, Prod.mk.injEq]
    exact ⟨rfl, by push_cast [List.length_cons]; ring⟩

theorem undo_fold (v : Cell) (l : List Point) (b : Board) (t : ℤ) :
    l.foldl (fun (acc : Board × ℤ) cp => ((acc.1.set cp v).1, acc.2 - 1))
      (b, t) =
    (l.foldl (fun bb cp => (bb.set cp v).1) b, t - l.length) := by
  induction l generalizing b t with
  | nil => simp
  | cons hd tl ih =>
    rw [List.foldl_cons, List.foldl_cons, ih, Prod.mk.injEq]
    exact ⟨rfl, by push_cast [List.length_cons]; ring⟩

theorem redo_eq {g : Game} {mv : Move} {rest : List Move}
    (h : g.redoSt = mv :: rest) :
    g.redo =
      { g.setTally mv.player (g.tally mv.player + mv.captured.length) with
        board := applyB g.board mv, undoSt := mv :: g.undoSt,
        redoSt := rest, turn := g.turn.other } := by
  obtain ⟨m, e, t, bd, cB, cW, us, rs⟩ := g
  obtain rfl : rs = mv :: rest := h
  rw [Game.redo.eq_def]
  dsimp only
  rw [redo_fold]
  rfl

theorem undo_eq {g : Game} {mv : Move} {rest : List Move}
    (h : g.undoSt = mv :: rest) :
    g.undo =
      { g.setTally mv.player (g.tally mv.player - mv.captured.length) with
        board := undoB g.board mv, undoSt := rest,
        redoSt := mv :: g.redoSt, turn := g.turn.other } := by
  obtain ⟨m, e, t, bd, cB, cW, us, rs⟩ := g
  obtain rfl : us = mv :: rest := h
  rw [Game.undo.eq_def]
  dsimp only
  rw [undo_fold]
  rfl

theorem playMove_spec (g : Game) (p : Point) :
    ((∀ cap, (g.playMove p).2 ≠ .accepted cap) ∧ (g.playMove p).1 = g) ∨
    ((g.playMove p).2 = .accepted ((g.placed p).capture p) ∧
      g.board.get p = some none ∧
      ¬(((g.placed p).capture p).length = 0 ∧
        ((g.placed p).noLibs p).length ≠ 0) ∧
      koHit g.undoSt p ((g.placed p).capture p) = false ∧
      (g.playMove p).1 =
        ({ g with
            board := g.placed p,
            redoSt := [⟨g.turn, p, (g.placed p).capture p⟩] }).redo) := by
  unfold Game.playMove
  split
  · rename_i hget
    dsimp only
    split_ifs with h1 h2
    · left
      refine ⟨by simp, ?_⟩
      have hb : ((g.placed p).set p none).1 = g.board :=
        set_set_revert _ hget
      show { g with board := ((g.placed p).set p none).1 } = g
      rw [hb]
    · left
      refine ⟨by simp, ?_⟩
      have hb : ((g.placed p).set p none).1 = g.board :=
        set_set_revert _ hget
      show { g with board := ((g.placed p).set p none).1 } = g
      rw [hb]
    · right
      exact ⟨rfl, hget, h1, by simpa using h2, rfl⟩
  · left
    exact ⟨by simp, rfl⟩
  · left
    exact ⟨by simp, rfl⟩

/-- C5: every rejected play-mode proposal — occupied target, out-of-bounds
target, suicide, or ko — leaves the whole engine state unchanged (board
grid, both stacks, both tallies, turn) and creates no move record. -/
theorem spec_C5 (g : Game) (p : Point)
    (h : ∀ cap, (g.playMove p).2 ≠ PlayResult.accepted cap) :
    (g.playMove p).1 = g := by
  rcases playMove_spec g p with ⟨_, hid⟩ | ⟨hacc, _⟩
  · exact hid
  · exact absurd hacc (h _)

/-- C5 witness: an out-of-bounds click on a fresh board is rejected and
changes nothing. -/
theorem spec_C5_witness :
    (∀ cap, ((initGame 2).playMove ⟨0, 0⟩).2 ≠ PlayResult.accepted cap) ∧
    ((initGame 2).playMove ⟨0, 0⟩).1 = initGame 2 := by
  have h2 : ((initGame 2).playMove ⟨0, 0⟩).2 = PlayResult.offBoard := rfl
  have h : ∀ cap, ((initGame 2).playMove ⟨0, 0⟩).2 ≠ PlayResult.accepted cap := by
    intro cap hc
    rw [h2] at hc
    exact PlayResult.noConfusion hc
  exact ⟨h, spec_C5 _ _ h⟩

/-- C10: a play-mode proposal toggles whose turn it is exactly when it is
accepted; every rejected proposal leaves the turn unchanged. -/
theorem spec_C10 (g : Game) (p : Point) :
    ((∃ cap, (g.playMove p).2 = PlayResult.accepted cap) →
      (g.playMove p).1.turn = g.turn.other) ∧
    ((∀ cap, (g.playMove p).2 ≠ PlayResult.accepted cap) →
      (g.playMove p).1.turn = g.turn) := by
  rcases playMove_spec g p with ⟨hrej, hid⟩ | ⟨hacc, hget, hsui, hko, hres⟩
  · refine ⟨?_, fun _ => by rw [hid]⟩
    rintro ⟨cap, hcap⟩
    exact absurd hcap (hrej cap)
  · constructor
    · intro _
      rw [hres, redo_eq rfl]
    · intro hrej
      exact absurd hacc (hrej _)

/-- C10 witness: the first stone on an empty 2×2 board is accepted and
hands the turn to white. -/
theorem spec_C10_witness :
    (∃ cap, ((initGame 2).playMove ⟨1, 1⟩).2 = PlayResult.accepted cap) ∧
    ((initGame 2).playMove ⟨1, 1⟩).1.turn = Player.B.other := by
  have hacc : ((initGame 2).playMove ⟨1, 1⟩).2 = PlayResult.accepted [] := by
    have hnl : (((initGame 2).placed ⟨1, 1⟩).noLibs ⟨1, 1⟩) = [] := by
      simp [Game.placed, initGame, mkBoard, Board.set, Board.noLibs,
        noLibsLoop.eq_def, dirScan, Board.get, idxN, InBsz, pushO,
        Point.north, Point.west, Point.south, Point.east, List.replicate]
    have hcap : (((initGame 2).placed ⟨1, 1⟩).capture ⟨1, 1⟩) = [] := by
      simp [Game.placed, initGame, mkBoard, Board.set, Board.capture,
        capCands, capCand, looseNe, Board.get, idxN, InBsz,
        Point.north, Point.west, Point.south, Point.east, List.replicate]
    unfold Game.playMove
    split
    · rename_i hget
      dsimp only
      rw [hcap, hnl]
      simp [koHit]
    · rename_i c hget
      rw [show (initGame 2).board.get ⟨1, 1⟩ = some none from by decide] at hget
      exact absurd hget.symm (by simp)
    · rename_i hget
      rw [show (initGame 2).board.get ⟨1, 1⟩ = some none from by decide] at hget
      exact absurd hget (by simp)
  exact ⟨⟨[], hacc⟩, (spec_C10 (initGame 2) ⟨1, 1⟩).1 ⟨[], hacc⟩⟩

/-- C4: a proposal at an empty position that captures nothing and leaves
its own group without liberties is rejected with the engine state exactly
as before the proposal; when at least one capture occurs the suicide
check is skipped and the proposal is never rejected as suicide. -/
theorem spec_C4 (g : Game) (p : Point) (hemp : g.board.get p = some none) :
    ((g.placed p).capture p = [] ∧ (g.placed p).noLibs p ≠ [] →
      g.playMove p = (g, PlayResult.suicide)) ∧
    ((g.placed p).capture p ≠ [] →
      (g.playMove p).2 ≠ PlayResult.suicide) := by
  unfold Game.playMove
  split
  · rename_i hget
    dsimp only
    constructor
    · rintro ⟨hcap, hnl⟩
      rw [if_pos ⟨by rw [hcap]; rfl, by simpa using hnl⟩]
      have hb : ((g.placed p).set p none).1 = g.board :=
        set_set_revert _ hget
      rw [Prod.mk.injEq]
      refine ⟨?_, rfl⟩
      show { g with board := ((g.placed p).set p none).1 } = g
      rw [hb]
    · intro hcap
      have h1 : ¬(((g.placed p).capture p).length = 0 ∧
          ((g.placed p).noLibs p).length ≠ 0) := by
        rintro ⟨hc, _⟩
        exact hcap (List.length_eq_zero.1 hc)
      rw [if_neg h1]
      by_cases h2 : koHit g.undoSt p ((g.placed p).capture p)
      · rw [if_pos h2]
        simp
      · rw [if_neg h2]
        simp
  · rename_i c hget
    rw [hget] at hemp
    exact absurd (Option.some_inj.1 hemp) (by simp)
  · rename_i hget
    rw [hget] at hemp
    exact absurd hemp (by simp)

/-- C4 witness: black playing (1,1) on a 2×2 board with white stones at
(2,1) and (1,2) captures nothing, has no liberty, and is rejected with
the state unchanged. -/
theorem spec_C4_witness :
    ((Game.mk Mode.PLAY Edit.ADD Player.B
        (Board.mk 2 [none, some Player.W, some Player.W, none])
        0 0 [] []).board.get ⟨1, 1⟩ = some none) ∧
    (Game.mk Mode.PLAY Edit.ADD Player.B
        (Board.mk 2 [none, some Player.W, some Player.W, none])
        0 0 [] []).playMove ⟨1, 1⟩ =
      (Game.mk Mode.PLAY Edit.ADD Player.B
        (Board.mk 2 [none, some Player.W, some Player.W, none])
        0 0 [] [], PlayResult.suicide) := by
  have hemp : (Game.mk Mode.PLAY Edit.ADD Player.B
      (Board.mk 2 [none, some Player.W, some Player.W, none])
      0 0 [] []).board.get ⟨1, 1⟩ = some none := by decide
  refine ⟨hemp, ?_⟩
  apply ((spec_C4 _ _ hemp).1)
  have hplaced : (Game.mk Mode.PLAY Edit.ADD Player.B
      (Board.mk 2 [none, some Player.W, some Player.W, none])
      0 0 [] []).placed ⟨1, 1⟩ =
      Board.mk 2 [some Player.B, some Player.W, some Player.W, none] := by
    simp [Game.placed, Board.set, idxN, List.set]
  have hA : (Board.mk 2 [some Player.B, some Player.W, some Player.W,
      none]).noLibs ⟨1, 2⟩ = [] := by
    simp [Board.noLibs, noLibsLoop.eq_def, dirScan, Board.get, idxN,
      InBsz, pushO, Point.north, Point.west, Point.south, Point.east]
  have hB : (Board.mk 2 [some Player.B, some Player.W, some Player.W,
      none]).noLibs ⟨2, 1⟩ = [] := by
    simp [Board.noLibs, noLibsLoop.eq_def, dirScan, Board.get, idxN,
      InBsz, pushO, Point.north, Point.west, Point.south, Point.east]
  have hD : (Board.mk 2 [some Player.B, some Player.W, some Player.W,
      none]).noLibs ⟨1, 1⟩ = [⟨1, 1⟩] := by
    simp [Board.noLibs, noLibsLoop.eq_def, dirScan, Board.get, idxN,
      InBsz, pushO, Point.north, Point.west, Point.south, Point.east]
  have hC : capCands (Board.mk 2 [some Player.B, some Player.W,
      some Player.W, none]) ⟨1, 1⟩ = [⟨1, 2⟩, ⟨2, 1⟩] := by
    simp [capCands, capCand, looseNe, Board.get, idxN, InBsz,
      Point.north, Point.west, Point.south, Point.east]
  rw [hplaced]
  constructor
  · unfold Board.capture
    rw [hC]
    simp [hA, hB]
  · rw [hD]
    simp

theorem koHit_iff {undoSt : List Move} {p : Point} {captured : List Point} :
    koHit undoSt p captured = true ↔
      ∃ lm rest cp lcp, undoSt = lm :: rest ∧ captured = [cp] ∧
        lm.captured = [lcp] ∧ p.x = lcp.x ∧ p.y = lcp.y ∧
        cp.x = lm.p.x ∧ cp.y = lm.p.y := by
  rcases captured with _ | ⟨cp, _ | ⟨c2, cs⟩⟩
  · simp [koHit]
  · rcases undoSt with _ | ⟨lm, rest⟩
    · simp [koHit]
    · rcases hlc : lm.captured with _ | ⟨lcp, _ | ⟨l2, ls⟩⟩
      · simp [koHit, hlc]
      · simp only [koHit, hlc, Bool.and_eq_true, beq_iff_eq]
        constructor
        · rintro ⟨⟨⟨h1, h2⟩, h3⟩, h4⟩
          exact ⟨lm, rest, cp, lcp, rfl, rfl, hlc, h1, h2, h3, h4⟩
        · rintro ⟨lm', rest', cp', lcp', heq, hceq, hlc', h1, h2, h3, h4⟩
          obtain ⟨rfl, rfl⟩ : lm' = lm ∧ rest' = rest := by
            simp at heq
            exact ⟨heq.1.symm, heq.2.symm⟩
          obtain rfl : cp' = cp := by
            simp at hceq
            exact hceq.symm
          obtain rfl : lcp' = lcp := by
            rw [hlc] at hlc'
            simpa using hlc'.symm
          exact ⟨⟨⟨h1, h2⟩, h3⟩, h4⟩
      · simp [koHit, hlc]
  · simp [koHit]

/-- C3: a proposal at an empty position is rejected as a ko violation
exactly when it would capture exactly one stone, the undo stack is
nonempty, its top move also captured exactly one stone, the proposed
position equals that move's single captured position, and the single
stone the proposal would capture sits at that move's placement position;
on such a rejection the tentative placement is reverted and the whole
engine state is unchanged. -/
theorem spec_C3 (g : Game) (p : Point) (hemp : g.board.get p = some none) :
    ((g.playMove p).2 = PlayResult.ko ↔
      ∃ lm rest cp lcp, g.undoSt = lm :: rest ∧
        (g.placed p).capture p = [cp] ∧ lm.captured = [lcp] ∧
        p.x = lcp.x ∧ p.y = lcp.y ∧ cp.x = lm.p.x ∧ cp.y = lm.p.y) ∧
    ((g.playMove p).2 = PlayResult.ko → (g.playMove p).1 = g) := by
  unfold Game.playMove
  split
  · rename_i hget
    dsimp only
    by_cases h1 : ((g.placed p).capture p).length = 0 ∧
        ((g.placed p).noLibs p).length ≠ 0
    · rw [if_pos h1]
      constructor
      · constructor
        · intro hc
          exact absurd hc (by simp)
        · rintro ⟨lm, rest, cp, lcp, _, hcap, _⟩
          rw [hcap] at h1
          exact absurd h1.1 (by simp)
      · intro hc
        exact absurd hc (by simp)
    · rw [if_neg h1]
      by_cases h2 : koHit g.undoSt p ((g.placed p).capture p)
      · rw [if_pos h2]
        have hb : ((g.placed p).set p none).1 = g.board :=
          set_set_revert _ hget
        constructor
        · exact ⟨fun _ => koHit_iff.1 h2, fun _ => rfl⟩
        · intro _
          show { g with board := ((g.placed p).set p none).1 } = g
          rw [hb]
      · rw [if_neg h2]
        constructor
        · constructor
          · intro hc
            exact absurd hc (by simp)
          · intro hex
            exact absurd (koHit_iff.2 hex) h2
        · intro hc
          exact absurd hc (by simp)
  · rename_i c hget
    rw [hget] at hemp
    exact absurd (Option.some_inj.1 hemp) (by simp)
  · rename_i hget
    rw [hget] at hemp
    exact absurd hemp (by simp)

/-- C3 witness: instantiation at the empty corner of a fresh 2×2 board
(no previous move, so the ko condition is equivalent to a false
statement and the proposal is not a ko rejection). -/
theorem spec_C3_witness :
    (initGame 2).board.get ⟨1, 1⟩ = some none ∧
    ((((initGame 2).playMove ⟨1, 1⟩).2 = PlayResult.ko ↔
      ∃ lm rest cp lcp, (initGame 2).undoSt = lm :: rest ∧
        ((initGame 2).placed ⟨1, 1⟩).capture ⟨1, 1⟩ = [cp] ∧
        lm.captured = [lcp] ∧ (1 : ℤ) = lcp.x ∧ (1 : ℤ) = lcp.y ∧
        cp.x = lm.p.x ∧ cp.y = lm.p.y) ∧
    (((initGame 2).playMove ⟨1, 1⟩).2 = PlayResult.ko →
      ((initGame 2).playMove ⟨1, 1⟩).1 = initGame 2)) :=
  ⟨by decide, spec_C3 (initGame 2) ⟨1, 1⟩ (by decide)⟩

/-- Modelled from the spec: §4.4 `apply(move)` — write the stone to the
board, erase the captured positions, push the move onto `undoStack`,
increment the acting player's capture tally by `captured.length`, and
advance the turn (the alternation §4.4 `undo` hands back one step). -/
def specApply (g : Game) (mv : Move) : Game :=
  { g.setTally mv.player (g.tally mv.player + mv.captured.length) with
    board := applyB g.board mv, undoSt := mv :: g.undoSt,
    turn := g.turn.other }

/-- Modelled from the spec: §4.4 `recordNewMove(move)` — equivalent to
`apply` followed by clearing `redoStack`. -/
def specRecordNewMove (g : Game) (mv : Move) : Game :=
  { specApply g mv with redoSt := [] }

/-- C7: the code's acceptance path — set `redoSt` to the singleton new
record and invoke `redo()` — produces exactly the same engine state as
the specified `recordNewMove`: apply the move directly, then clear the
redo stack. -/
theorem spec_C7 (g : Game) (mv : Move) :
    ({ g with redoSt := [mv] }).redo = specRecordNewMove g mv := by
  rw [redo_eq rfl]
  unfold specRecordNewMove specApply
  obtain ⟨mp, mq, mc⟩ := mv
  cases mp <;> rfl

theorem Player.other_other (pl : Player) : pl.other.other = pl := by
  cases pl <;> rfl

theorem size_foldl_set (v : Cell) (l : List Point) (b : Board) :
    (l.foldl (fun bb cp => (bb.set cp v).1) b).size = b.size := by
  induction l generalizing b with
  | nil => rfl
  | cons hd tl ih => rw [List.foldl_cons, ih, size_set]

theorem length_foldl_set (v : Cell) (l : List Point) (b : Board) :
    (l.foldl (fun bb cp => (bb.set cp v).1) b).state.length =
      b.state.length := by
  induction l generalizing b with
  | nil => rfl
  | cons hd tl ih => rw [List.foldl_cons, ih, length_set]

theorem size_applyB (b : Board) (mv : Move) : (applyB b mv).size = b.size := by
  unfold applyB
  rw [size_foldl_set, size_set]

theorem length_applyB (b : Board) (mv : Move) :
    (applyB b mv).state.length = b.state.length := by
  unfold applyB
  rw [length_foldl_set, length_set]

theorem size_undoB (b : Board) (mv : Move) : (undoB b mv).size = b.size := by
  unfold undoB
  rw [size_foldl_set, size_set]

theorem getElem?_set_board (v : Cell) (b : Board) (q : Point) (j : ℕ) :
    (((b.set q v).1).state)[j]? =
      if InBsz b.size q ∧ idxN b.size q = j then
        (if j < b.state.length then some v else none)
      else b.state[j]? := by
  by_cases hq : InBsz b.size q
  · rw [state_set_of_inB v hq, List.getElem?_set]
    by_cases hj : idxN b.size q = j
    · simp [hj, hq]
    · simp [hj]
  · rw [set_of_not_inB v hq]
    simp [hq]

theorem getElem?_foldl_set (v : Cell) (l : List Point) (b : Board) (j : ℕ) :
    ((l.foldl (fun bb cp => (bb.set cp v).1) b).state)[j]? =
      if ∃ cp ∈ l, InBsz b.size cp ∧ idxN b.size cp = j then
        (if j < b.state.length then some v else none)
      else b.state[j]? := by
  induction l generalizing b with
  | nil => simp
  | cons hd tl ih =>
    rw [List.foldl_cons, ih ((b.set hd v).1)]
    simp only [size_set, length_set]
    rw [getElem?_set_board]
    by_cases h1 : ∃ cp ∈ tl, InBsz b.size cp ∧ idxN b.size cp = j
    · have h1' : ∃ cp ∈ hd :: tl, InBsz b.size cp ∧ idxN b.size cp = j := by
        obtain ⟨cp, hcp, hc⟩ := h1
        exact ⟨cp, List.mem_cons_of_mem _ hcp, hc⟩
      rw [if_pos h1, if_pos h1']
    · by_cases h2 : InBsz b.size hd ∧ idxN b.size hd = j
      · have h2' : ∃ cp ∈ hd :: tl, InBsz b.size cp ∧ idxN b.size cp = j :=
          ⟨hd, List.mem_cons_self _ _, h2⟩
        rw [if_neg h1, if_pos h2, if_pos h2']
      · have h2' : ¬∃ cp ∈ hd :: tl, InBsz b.size cp ∧ idxN b.size cp = j := by
          rintro ⟨cp, hcp, hc⟩
          rcases List.mem_cons.1 hcp with rfl | hcp'
          · exact h2 hc
          · exact h1 ⟨cp, hcp', hc⟩
        rw [if_neg h1, if_neg h2, if_neg h2']

theorem state_getElem?_of_get {b : Board} {q : Point} {c : Cell}
    (h : b.get q = some c) (hc : c ≠ none) :
    b.state[idxN b.size q]? = some c ∧ idxN b.size q < b.state.length := by
  have hin := inB_of_get h
  rw [get_eq_of_inB hin] at h
  have hgd : b.state.getD (idxN b.size q) none = c := Option.some_inj.1 h
  rw [List.getD_eq_getElem?_getD] at hgd
  cases hx : b.state[idxN b.size q]? with
  | none =>
    rw [hx] at hgd
    exact absurd hgd.symm hc
  | some d =>
    rw [hx] at hgd
    simp only [Option.getD_some] at hgd
    constructor
    · rw [hgd]
    · by_contra hlt
      rw [List.getElem?_eq_none (by omega)] at hx
      exact Option.noConfusion hx

theorem undoB_applyB {b : Board} {mv : Move}
    (h1 : b.get mv.p = some none)
    (h2 : ∀ cp ∈ mv.captured, b.get cp = some (some mv.player.other)) :
    undoB (applyB b mv) mv = b := by
  have hinp : InBsz b.size mv.p := inB_of_get h1
  apply board_eq_of
  · rw [size_undoB, size_applyB]
  · apply List.ext_getElem?
    intro j
    unfold undoB applyB
    rw [getElem?_foldl_set]
    simp only [size_set, length_set, size_foldl_set, length_foldl_set]
    rw [getElem?_set_board]
    simp only [size_foldl_set, length_foldl_set, size_set, length_set]
    rw [getElem?_foldl_set]
    simp only [size_set, length_set]
    rw [getElem?_set_board]
    by_cases hPc : ∃ cp ∈ mv.captured, InBsz b.size cp ∧ idxN b.size cp = j
    · rw [if_pos hPc]
      obtain ⟨cp, hcpm, hcpin, hcpidx⟩ := hPc
      obtain ⟨hcell, hlt⟩ := state_getElem?_of_get (h2 cp hcpm) (by simp)
      rw [hcpidx] at hcell hlt
      rw [if_pos hlt, hcell]
    · rw [if_neg hPc]
      by_cases hPp : InBsz b.size mv.p ∧ idxN b.size mv.p = j
      · rw [if_pos hPp]
        obtain ⟨_, hpidx⟩ := hPp
        have hgd : b.state.getD (idxN b.size mv.p) none = none :=
          Option.some_inj.1 ((get_eq_of_inB hinp).symm.trans h1)
        rw [List.getD_eq_getElem?_getD, hpidx] at hgd
        by_cases hlt : j < b.state.length
        · rw [if_pos hlt]
          cases hx : b.state[j]? with
          | none =>
            rw [List.getElem?_eq_none_iff] at hx
            omega
          | some d =>
            rw [hx] at hgd
            simp only [Option.getD_some] at hgd
            rw [hgd]
        · rw [if_neg hlt, List.getElem?_eq_none (by omega)]
      · rw [if_neg hPp, if_neg hPc, if_neg hPp]

/-- Every position captured by a legal placement held an enemy stone on
the board before the placement. -/
theorem captured_enemy_pre {b : Board} {t : Player} {p : Point}
    (hwf : b.state.length = b.size * b.size)
    (hemp : b.get p = some none) :
    ∀ cp ∈ ((b.set p (some t)).1).capture p,
      b.get cp = some (some t.other) := by
  intro cp hcp
  have hin : InBsz b.size p := inB_of_get hemp
  have hplaced : ((b.set p (some t)).1).get p = some (some t) :=
    get_set_self _ hin (by rw [hwf]; exact idxN_lt hin)
  have hst := capture_stones hplaced cp hcp
  have hne : cp ≠ p := by
    intro hcc
    rw [hcc, hplaced] at hst
    have := Option.some_inj.1 (Option.some_inj.1 hst)
    cases t <;> simp [Player.other] at this
  rw [get_set_ne _ hne] at hst
  exact hst

/-- A well-formed move relative to a board and whose turn it is: the
acting player's, placed on an empty position, capturing only enemy
stones. -/
def MoveOKb (b : Board) (t : Player) (mv : Move) : Prop :=
  mv.player = t ∧ b.get mv.p = some none ∧
  ∀ cp ∈ mv.captured, b.get cp = some (some t.other)

/-- Per-player sum of captured counts over a list of move records. -/
def tallySum (pl : Player) : List Move → ℤ
  | [] => 0
  | mv :: rest =>
    (if mv.player = pl then (mv.captured.length : ℤ) else 0) + tallySum pl rest

/-- The undo stack is a chain of well-formed moves leading from the empty
board with black to move up to the current board and turn. -/
def GoodStack (sz : ℕ) : Board → Player → List Move → Prop
  | b, t, [] => b = mkBoard sz ∧ t = Player.B
  | b, t, mv :: rest => ∃ b' t', GoodStack sz b' t' rest ∧ MoveOKb b' t' mv ∧
      b = applyB b' mv ∧ t = t'.other

/-- The moves of the redo stack are well-formed forward from the current
board and turn. -/
def GoodRedo : Board → Player → List Move → Prop
  | _, _, [] => True
  | b, t, mv :: rest => MoveOKb b t mv ∧ GoodRedo (applyB b mv) t.other rest

/-- Repeated `undo()` calls. -/
def undoIter : ℕ → Game → Game
  | 0, g => g
  | n + 1, g => undoIter n g.undo

/-- Repeated `redo()` calls. -/
def redoIter : ℕ → Game → Game
  | 0, g => g
  | n + 1, g => redoIter n g.redo

/-- Replay a list of move records (oldest first) on a board. -/
def replayB (b : Board) : List Move → Board
  | [] => b
  | mv :: rest => replayB (applyB b mv) rest

/-- The turn after a number of alternations. -/
def turnN (t : Player) : ℕ → Player
  | 0 => t
  | n + 1 => turnN t.other n

theorem turnN_succ (t : Player) (n : ℕ) :
    turnN t (n + 1) = (turnN t n).other := by
  induction n generalizing t with
  | zero => rfl
  | succ k ih =>
    show turnN t.other (k + 1) = _
    rw [ih t.other]
    rfl

theorem replayB_append (b : Board) (l1 l2 : List Move) :
    replayB b (l1 ++ l2) = replayB (replayB b l1) l2 := by
  induction l1 generalizing b with
  | nil => rfl
  | cons mv rest ih => exact ih (applyB b mv)

theorem tallySum_append (pl : Player) (l1 l2 : List Move) :
    tallySum pl (l1 ++ l2) = tallySum pl l1 + tallySum pl l2 := by
  induction l1 with
  | nil => simp [tallySum]
  | cons mv rest ih =>
    rw [List.cons_append]
    show (if mv.player = pl then (mv.captured.length : ℤ) else 0) +
        tallySum pl (rest ++ l2) =
      ((if mv.player = pl then (mv.captured.length : ℤ) else 0) +
        tallySum pl rest) + tallySum pl l2
    rw [ih]
    ring

theorem tallySum_reverse (pl : Player) (l : List Move) :
    tallySum pl l.reverse = tallySum pl l := by
  induction l with
  | nil => rfl
  | cons mv rest ih =>
    rw [List.reverse_cons, tallySum_append, ih]
    show tallySum pl rest +
        ((if mv.player = pl then (mv.captured.length : ℤ) else 0) + 0) =
      (if mv.player = pl then (mv.captured.length : ℤ) else 0) +
        tallySum pl rest
    ring

theorem goodRedo_append : ∀ (l1 l2 : List Move) (b : Board) (t : Player),
    GoodRedo b t l1 → GoodRedo (replayB b l1) (turnN t l1.length) l2 →
    GoodRedo b t (l1 ++ l2) := by
  intro l1
  induction l1 with
  | nil =>
    intro l2 b t _ h2
    exact h2
  | cons mv rest ih =>
    intro l2 b t h1 h2
    exact ⟨h1.1, ih l2 _ _ h1.2 h2⟩

theorem goodStack_unwind {sz : ℕ} :
    ∀ (us : List Move) (bd : Board) (t : Player),
      GoodStack sz bd t us →
      GoodRedo (mkBoard sz) Player.B us.reverse ∧
      replayB (mkBoard sz) us.reverse = bd ∧
      turnN Player.B us.length = t := by
  intro us
  induction us with
  | nil =>
    rintro bd t ⟨rfl, rfl⟩
    exact ⟨trivial, rfl, rfl⟩
  | cons mv rest ih =>
    rintro bd t ⟨b', t', hgs', hok, rfl, rfl⟩
    obtain ⟨hgr, hrep, htn⟩ := ih b' t' hgs'
    have hlen : rest.reverse.length = rest.length := by simp
    refine ⟨?_, ?_, ?_⟩
    · rw [List.reverse_cons]
      apply goodRedo_append _ _ _ _ hgr
      rw [hrep, hlen, htn]
      exact ⟨hok, trivial⟩
    · rw [List.reverse_cons, replayB_append, hrep]
      rfl
    · rw [List.length_cons, turnN_succ, htn]

theorem undoIter_good {sz : ℕ} :
    ∀ (us : List Move) (m : Mode) (e : Edit) (t : Player) (bd : Board)
      (cB cW : ℤ) (R : List Move),
      GoodStack sz bd t us →
      undoIter us.length (Game.mk m e t bd cB cW us R) =
        Game.mk m e Player.B (mkBoard sz) (cB - tallySum Player.B us)
          (cW - tallySum Player.W us) [] (us.reverse ++ R) := by
  intro us
  induction us with
  | nil =>
    intro m e t bd cB cW R hgs
    obtain ⟨rfl, rfl⟩ := hgs
    show Game.mk m e Player.B (mkBoard sz) cB cW [] R = _
    rw [show tallySum Player.B [] = 0 from rfl,
      show tallySum Player.W [] = 0 from rfl]
    simp
  | cons mv rest ih =>
    intro m e t bd cB cW R hgs
    obtain ⟨b', t', hgs', hok, rfl, rfl⟩ := hgs
    obtain ⟨hpl, hmp, hcap⟩ := hok
    have hbrd : undoB (applyB b' mv) mv = b' :=
      undoB_applyB hmp (by rw [hpl]; exact hcap)
    show undoIter rest.length
        (Game.mk m e t'.other (applyB b' mv) cB cW (mv :: rest) R).undo = _
    rw [undo_eq rfl]
    obtain ⟨mvp, mvq, mvc⟩ := mv
    dsimp only at hpl
    subst hpl
    dsimp only at hbrd ⊢
    cases mvp with
    | B =>
      simp only [Game.setTally, Game.tally]
      rw [Player.other_other, hbrd, ih m e Player.B b' _ _ _ hgs']
      rw [Game.mk.injEq]
      refine ⟨rfl, rfl, rfl, rfl, ?_, ?_, rfl, by simp⟩
      · show cB - (mvc.length : ℤ) - tallySum Player.B rest =
          cB - ((if (Player.B = Player.B) then (mvc.length : ℤ) else 0) +
            tallySum Player.B rest)
        rw [if_pos rfl]
        ring
      · show cW - tallySum Player.W rest =
          cW - ((if (Player.B = Player.W) then (mvc.length : ℤ) else 0) +
            tallySum Player.W rest)
        rw [if_neg (by decide)]
        ring
    | W =>
      simp only [Game.setTally, Game.tally]
      rw [Player.other_other, hbrd, ih m e Player.W b' _ _ _ hgs']
      rw [Game.mk.injEq]
      refine ⟨rfl, rfl, rfl, rfl, ?_, ?_, rfl, by simp⟩
      · show cB - tallySum Player.B rest =
          cB - ((if (Player.W = Player.B) then (mvc.length : ℤ) else 0) +
            tallySum Player.B rest)
        rw [if_neg (by decide)]
        ring
      · show cW - (mvc.length : ℤ) - tallySum Player.W rest =
          cW - ((if (Player.W = Player.W) then (mvc.length : ℤ) else 0) +
            tallySum Player.W rest)
        rw [if_pos rfl]
        ring

theorem redoIter_good :
    ∀ (R : List Move) (m : Mode) (e : Edit) (t : Player) (bd : Board)
      (cB cW : ℤ) (us : List Move),
      GoodRedo bd t R →
      redoIter R.length (Game.mk m e t bd cB cW us R) =
        Game.mk m e (turnN t R.length) (replayB bd R)
          (cB + tallySum Player.B R) (cW + tallySum Player.W R)
          (R.reverse ++ us) [] := by
  intro R
  induction R with
  | nil =>
    intro m e t bd cB cW us _
    show Game.mk m e t bd cB cW us [] = _
    rw [show tallySum Player.B [] = 0 from rfl,
      show tallySum Player.W [] = 0 from rfl]
    simp [turnN, replayB]
  | cons mv rest ih =>
    intro m e t bd cB cW us hgr
    obtain ⟨hok, hgr2⟩ := hgr
    obtain ⟨hpl, _, _⟩ := hok
    show redoIter rest.length
        (Game.mk m e t bd cB cW us (mv :: rest)).redo = _
    rw [redo_eq rfl]
    obtain ⟨mvp, mvq, mvc⟩ := mv
    dsimp only at hpl hgr2
    subst hpl
    cases mvp with
    | B =>
      simp only [Game.setTally, Game.tally]
      rw [ih m e Player.B.other (applyB bd (Move.mk Player.B mvq mvc)) _ _ _
        hgr2]
      rw [Game.mk.injEq]
      refine ⟨rfl, rfl, rfl, rfl, ?_, ?_, by simp, rfl⟩
      · show cB + (mvc.length : ℤ) + tallySum Player.B rest =
          cB + ((if (Player.B = Player.B) then (mvc.length : ℤ) else 0) +
            tallySum Player.B rest)
        rw [if_pos rfl]
        ring
      · show cW + tallySum Player.W rest =
          cW + ((if (Player.B = Player.W) then (mvc.length : ℤ) else 0) +
            tallySum Player.W rest)
        rw [if_neg (by decide)]
        ring
    | W =>
      simp only [Game.setTally, Game.tally]
      rw [ih m e Player.W.other (applyB bd (Move.mk Player.W mvq mvc)) _ _ _
        hgr2]
      rw [Game.mk.injEq]
      refine ⟨rfl, rfl, rfl, rfl, ?_, ?_, by simp, rfl⟩
      · show cB + tallySum Player.B rest =
          cB + ((if (Player.W = Player.B) then (mvc.length : ℤ) else 0) +
            tallySum Player.B rest)
        rw [if_neg (by decide)]
        ring
      · show cW + (mvc.length : ℤ) + tallySum Player.W rest =
          cW + ((if (Player.W = Player.W) then (mvc.length : ℤ) else 0) +
            tallySum Player.W rest)
        rw [if_pos rfl]
        ring

theorem applyB_placed (g : Game) (p : Point) (cap : List Point) :
    applyB (g.placed p) ⟨g.turn, p, cap⟩ = applyB g.board ⟨g.turn, p, cap⟩ := by
  unfold applyB Game.placed
  dsimp only
  rw [set_set]

/-- Invariant of play-mode interaction: the undo stack is a well-formed
chain from the empty board, the redo stack is empty, the tallies sum the
captures recorded in the undo stack, and the grid is well formed. -/
def PlayInv (sz : ℕ) (g : Game) : Prop :=
  GoodStack sz g.board g.turn g.undoSt ∧ g.redoSt = [] ∧
  g.capturedB = tallySum Player.B g.undoSt ∧
  g.capturedW = tallySum Player.W g.undoSt ∧
  g.board.size = sz ∧ g.board.state.length = sz * sz

/-- Games reachable from a fresh game by play-mode proposals only. -/
inductive PlayReach (sz : ℕ) : Game → Prop where
  | init : PlayReach sz (initGame sz)
  | step (g : Game) (p : Point) : PlayReach sz g → PlayReach sz (g.playMove p).1

theorem playInv_step {sz : ℕ} {g : Game} (p : Point) (hinv : PlayInv sz g) :
    PlayInv sz (g.playMove p).1 := by
  rcases playMove_spec g p with ⟨_, hid⟩ | ⟨_, hget, _, _, hres⟩
  · rw [hid]
    exact hinv
  · obtain ⟨hgs, hre, hcb, hcw, hbs, hbl⟩ := hinv
    have hwb : g.board.state.length = g.board.size * g.board.size := by
      rw [hbs, hbl]
    have hok : MoveOKb g.board g.turn ⟨g.turn, p, (g.placed p).capture p⟩ :=
      ⟨rfl, hget, captured_enemy_pre hwb hget⟩
    rw [hres, redo_eq rfl]
    refine ⟨?_, rfl, ?_, ?_, ?_, ?_⟩
    · show GoodStack sz
        (applyB (g.placed p) ⟨g.turn, p, (g.placed p).capture p⟩)
        g.turn.other (⟨g.turn, p, (g.placed p).capture p⟩ :: g.undoSt)
      rw [applyB_placed]
      exact ⟨g.board, g.turn, hgs, hok, rfl, rfl⟩
    · cases hgt : g.turn with
      | B =>
        rw [hgt] at hok
        show g.capturedB + ((g.placed p).capture p).length =
          (if (⟨Player.B, p, (g.placed p).capture p⟩ : Move).player =
            Player.B then (((g.placed p).capture p).length : ℤ) else 0) +
          tallySum Player.B g.undoSt
        rw [if_pos rfl, hcb]
        ring
      | W =>
        rw [hgt] at hok
        show g.capturedB =
          (if (⟨Player.W, p, (g.placed p).capture p⟩ : Move).player =
            Player.B then (((g.placed p).capture p).length : ℤ) else 0) +
          tallySum Player.B g.undoSt
        rw [if_neg (by simp), hcb]
        ring
    · cases hgt : g.turn with
      | B =>
        show g.capturedW =
          (if (⟨Player.B, p, (g.placed p).capture p⟩ : Move).player =
            Player.W then (((g.placed p).capture p).length : ℤ) else 0) +
          tallySum Player.W g.undoSt
        rw [if_neg (by simp), hcw]
        ring
      | W =>
        show g.capturedW + ((g.placed p).capture p).length =
          (if (⟨Player.W, p, (g.placed p).capture p⟩ : Move).player =
            Player.W then (((g.placed p).capture p).length : ℤ) else 0) +
          tallySum Player.W g.undoSt
        rw [if_pos rfl, hcw]
        ring
    · show (applyB (g.placed p) ⟨g.turn, p, (g.placed p).capture p⟩).size = sz
      rw [size_applyB]
      show ((g.board.set p (some g.turn)).1).size = sz
      rw [size_set]
      exact hbs
    · show (applyB (g.placed p)
        ⟨g.turn, p, (g.placed p).capture p⟩).state.length = sz * sz
      rw [length_applyB]
      show ((g.board.set p (some g.turn)).1).state.length = sz * sz
      rw [length_set]
      exact hbl

theorem playInv_reach {sz : ℕ} {g : Game} (h : PlayReach sz g) :
    PlayInv sz g := by
  induction h with
  | init =>
    exact ⟨⟨rfl, rfl⟩, rfl, rfl, rfl, rfl, by simp [initGame, mkBoard]⟩
  | step g p _ ih => exact playInv_step p ih

/-- C2: starting from an empty board, after any sequence of play-mode
proposals, undoing as many times as there are recorded moves restores the
empty board, zero tallies, black to move, and an empty undo stack;
redoing the same number of times afterwards reproduces the exact
pre-undo game (board, tallies, turn and both stacks); and at every such
point replaying the undo stack in order from the empty board reproduces
the current board exactly. -/
theorem spec_C2 (sz : ℕ) (g : Game) (h : PlayReach sz g) :
    (undoIter g.undoSt.length g).board = mkBoard sz ∧
    (undoIter g.undoSt.length g).capturedB = 0 ∧
    (undoIter g.undoSt.length g).capturedW = 0 ∧
    (undoIter g.undoSt.length g).turn = Player.B ∧
    (undoIter g.undoSt.length g).undoSt = [] ∧
    redoIter g.undoSt.length (undoIter g.undoSt.length g) = g ∧
    g.board = replayB (mkBoard sz) g.undoSt.reverse := by
  obtain ⟨hgs, hre, hcb, hcw, hbs, hbl⟩ := playInv_reach h
  obtain ⟨m, e, t, bd, cB, cW, us, rs⟩ := g
  dsimp only at hgs hre hcb hcw hbs hbl ⊢
  obtain rfl : rs = [] := hre
  obtain ⟨hgr, hrep, htn⟩ := goodStack_unwind us bd t hgs
  rw [undoIter_good us m e t bd cB cW [] hgs]
  rw [List.append_nil]
  have hlen : us.reverse.length = us.length := by simp
  refine ⟨rfl, by rw [hcb]; ring, by rw [hcw]; ring, rfl, rfl, ?_,
    hrep.symm⟩
  rw [← hlen, redoIter_good us.reverse m e Player.B (mkBoard sz) _ _ [] hgr]
  rw [Game.mk.injEq]
  refine ⟨rfl, rfl, ?_, hrep, ?_, ?_, by simp, rfl⟩
  · rw [hlen, htn]
  · rw [tallySum_reverse, hcb]
    ring
  · rw [tallySum_reverse, hcw]
    ring

/-- C2 witness: instantiation at the fresh game (zero accepted moves). -/
theorem spec_C2_witness :
    (undoIter (initGame 2).undoSt.length (initGame 2)).board = mkBoard 2 ∧
    (undoIter (initGame 2).undoSt.length (initGame 2)).capturedB = 0 ∧
    (undoIter (initGame 2).undoSt.length (initGame 2)).capturedW = 0 ∧
    (undoIter (initGame 2).undoSt.length (initGame 2)).turn = Player.B ∧
    (undoIter (initGame 2).undoSt.length (initGame 2)).undoSt = [] ∧
    redoIter (initGame 2).undoSt.length
      (undoIter (initGame 2).undoSt.length (initGame 2)) = initGame 2 ∧
    (initGame 2).board = replayB (mkBoard 2) (initGame 2).undoSt.reverse :=
  spec_C2 2 (initGame 2) PlayReach.init

/-- A move record passes the full play-mode legality check against a
board and a ko history: its position is empty (hence in bounds), its
captured list is exactly what `capture` finds after the tentative
placement, the suicide condition fails, and the ko condition fails. -/
def LegalAt (b : Board) (hist : List Move) (mv : Move) : Prop :=
  b.get mv.p = some none ∧
  mv.captured = ((b.set mv.p (some mv.player)).1).capture mv.p ∧
  ¬(mv.captured.length = 0 ∧
    (((b.set mv.p (some mv.player)).1).noLibs mv.p).length ≠ 0) ∧
  koHit hist mv.p mv.captured = false

/-- The undo stack is a chain of checked moves leading from some base
board (the last free-edit state or the fresh board) to the current one. -/
def ChainB (b0 : Board) : Board → List Move → Prop
  | b, [] => b = b0
  | b, mv :: rest =>
      ∃ b', ChainB b0 b' rest ∧ LegalAt b' rest mv ∧ b = applyB b' mv

/-- The redo stack is a chain of checked moves forward from the current
board under the current ko history. -/
def ChainF : Board → List Move → List Move → Prop
  | _, _, [] => True
  | b, hist, mv :: rest =>
      LegalAt b hist mv ∧ ChainF (applyB b mv) (mv :: hist) rest

/-- History invariant: both stacks consist of fully checked moves. -/
def Inv8 (sz : ℕ) (g : Game) : Prop :=
  (∃ b0, ChainB b0 g.board g.undoSt) ∧
  ChainF g.board g.undoSt g.redoSt ∧
  g.board.size = sz ∧ g.board.state.length = sz * sz

theorem undo_nil {g : Game} (h : g.undoSt = []) : g.undo = g := by
  obtain ⟨m, e, t, bd, cB, cW, us, rs⟩ := g
  obtain rfl : us = [] := h
  rfl

theorem redo_nil {g : Game} (h : g.redoSt = []) : g.redo = g := by
  obtain ⟨m, e, t, bd, cB, cW, us, rs⟩ := g
  obtain rfl : rs = [] := h
  rfl

theorem inv8_play {sz : ℕ} {g : Game} (p : Point) (h : Inv8 sz g) :
    Inv8 sz (g.playMove p).1 := by
  obtain ⟨⟨b0, hch⟩, hcf, hbs, hbl⟩ := h
  rcases playMove_spec g p with ⟨_, hid⟩ | ⟨_, hget, hsui, hko, hres⟩
  · rw [hid]
    exact ⟨⟨b0, hch⟩, hcf, hbs, hbl⟩
  · rw [hres, redo_eq rfl]
    have hleg : LegalAt g.board g.undoSt
        ⟨g.turn, p, (g.placed p).capture p⟩ := ⟨hget, rfl, hsui, hko⟩
    refine ⟨⟨b0, ?_⟩, trivial, ?_, ?_⟩
    · show ChainB b0
        (applyB (g.placed p) ⟨g.turn, p, (g.placed p).capture p⟩)
        (⟨g.turn, p, (g.placed p).capture p⟩ :: g.undoSt)
      rw [applyB_placed]
      exact ⟨g.board, hch, hleg, rfl⟩
    · show (applyB (g.placed p) ⟨g.turn, p, (g.placed p).capture p⟩).size = sz
      rw [size_applyB]
      show ((g.board.set p (some g.turn)).1).size = sz
      rw [size_set]
      exact hbs
    · show (applyB (g.placed p)
        ⟨g.turn, p, (g.placed p).capture p⟩).state.length = sz * sz
      rw [length_applyB]
      show ((g.board.set p (some g.turn)).1).state.length = sz * sz
      rw [length_set]
      exact hbl

theorem inv8_undo {sz : ℕ} {g : Game} (h : Inv8 sz g) : Inv8 sz g.undo := by
  obtain ⟨⟨b0, hch⟩, hcf, hbs, hbl⟩ := h
  cases hus : g.undoSt with
  | nil =>
    rw [undo_nil hus]
    exact ⟨⟨b0, hch⟩, hcf, hbs, hbl⟩
  | cons mv rest =>
    rw [undo_eq hus]
    rw [hus] at hch
    obtain ⟨b', hch', hleg, hbeq⟩ := hch
    have hbs' : b'.size = sz := by
      rw [hbeq, size_applyB] at hbs
      exact hbs
    have hbl' : b'.state.length = sz * sz := by
      rw [hbeq, length_applyB] at hbl
      exact hbl
    have hb2 : ∀ cp ∈ mv.captured, b'.get cp = some (some mv.player.other) := by
      rw [hleg.2.1]
      exact captured_enemy_pre (by rw [hbl', hbs']) hleg.1
    have hbrd : undoB g.board mv = b' := by
      rw [hbeq]
      exact undoB_applyB hleg.1 hb2
    refine ⟨⟨b0, ?_⟩, ?_, ?_, ?_⟩
    · show ChainB b0 (undoB g.board mv) rest
      rw [hbrd]
      exact hch'
    · show ChainF (undoB g.board mv) rest (mv :: g.redoSt)
      rw [hbrd]
      refine ⟨hleg, ?_⟩
      show ChainF (applyB b' mv) (mv :: rest) g.redoSt
      rw [← hbeq, ← hus]
      exact hcf
    · show (undoB g.board mv).size = sz
      rw [hbrd]
      exact hbs'
    · show (undoB g.board mv).state.length = sz * sz
      rw [hbrd]
      exact hbl'

theorem inv8_redo {sz : ℕ} {g : Game} (h : Inv8 sz g) : Inv8 sz g.redo := by
  obtain ⟨⟨b0, hch⟩, hcf, hbs, hbl⟩ := h
  cases hrs : g.redoSt with
  | nil =>
    rw [redo_nil hrs]
    exact ⟨⟨b0, hch⟩, hcf, hbs, hbl⟩
  | cons mv rest =>
    rw [redo_eq hrs]
    rw [hrs] at hcf
    obtain ⟨hleg, hcf2⟩ := hcf
    refine ⟨⟨b0, ⟨g.board, hch, hleg, rfl⟩⟩, hcf2, ?_, ?_⟩
    · show (applyB g.board mv).size = sz
      rw [size_applyB]
      exact hbs
    · show (applyB g.board mv).state.length = sz * sz
      rw [length_applyB]
      exact hbl

theorem inv8_edit {sz : ℕ} {g : Game} (p : Point) (h : Inv8 sz g) :
    Inv8 sz (g.editClick p) := by
  obtain ⟨_, _, hbs, hbl⟩ := h
  unfold Game.editClick Game.clearHist
  cases he : g.editMode <;> dsimp only
  · exact ⟨⟨(g.board.set p (some g.turn)).1, rfl⟩, trivial,
      by rw [size_set]; exact hbs, by rw [length_set]; exact hbl⟩
  · exact ⟨⟨(g.board.set p none).1, rfl⟩, trivial,
      by rw [size_set]; exact hbs, by rw [length_set]; exact hbl⟩

theorem inv8_fields {sz : ℕ} {g g2 : Game} (h : Inv8 sz g)
    (hb : g2.board = g.board) (hu : g2.undoSt = g.undoSt)
    (hr : g2.redoSt = g.redoSt) : Inv8 sz g2 := by
  obtain ⟨⟨b0, hch⟩, hcf, hbs, hbl⟩ := h
  unfold Inv8
  rw [hb, hu, hr]
  exact ⟨⟨b0, hch⟩, hcf, hbs, hbl⟩

/-- Games reachable through arbitrary interleavings of all the UI event
handlers: canvas clicks (play or edit), the undo/redo buttons, the mode,
display and edit-submode toggles, and the manual tally buttons. -/
inductive Reach8 (sz : ℕ) : Game → Prop where
  | init : Reach8 sz (initGame sz)
  | click (g : Game) (p : Point) : Reach8 sz g → Reach8 sz (g.canvasClick p)
  | undoStep (g : Game) : Reach8 sz g → Reach8 sz g.undo
  | redoStep (g : Game) : Reach8 sz g → Reach8 sz g.redo
  | modeStep (g : Game) : Reach8 sz g → Reach8 sz g.modeClick
  | dispStep (g : Game) : Reach8 sz g → Reach8 sz g.displayClick
  | addpStep (g : Game) : Reach8 sz g → Reach8 sz g.addpClick
  | bpStep (g : Game) : Reach8 sz g → Reach8 sz g.bpClick
  | bmStep (g : Game) : Reach8 sz g → Reach8 sz g.bmClick
  | wpStep (g : Game) : Reach8 sz g → Reach8 sz g.wpClick
  | wmStep (g : Game) : Reach8 sz g → Reach8 sz g.wmClick

theorem inv8_reach {sz : ℕ} {g : Game} (h : Reach8 sz g) : Inv8 sz g := by
  induction h with
  | init =>
    exact ⟨⟨mkBoard sz, rfl⟩, trivial, rfl, by simp [initGame, mkBoard]⟩
  | click g p _ ih =>
    unfold Game.canvasClick
    cases hm : g.mode with
    | PLAY => exact inv8_play p ih
    | EDIT => exact inv8_edit p ih
  | undoStep g _ ih => exact inv8_undo ih
  | redoStep g _ ih => exact inv8_redo ih
  | modeStep g _ ih =>
    exact inv8_fields ih (by unfold Game.modeClick; cases g.mode <;> rfl)
      (by unfold Game.modeClick; cases g.mode <;> rfl)
      (by unfold Game.modeClick; cases g.mode <;> rfl)
  | dispStep g _ ih =>
    exact inv8_fields ih (by unfold Game.displayClick; cases g.mode <;> rfl)
      (by unfold Game.displayClick; cases g.mode <;> rfl)
      (by unfold Game.displayClick; cases g.mode <;> rfl)
  | addpStep g _ ih =>
    exact inv8_fields ih (by unfold Game.addpClick; cases g.editMode <;> rfl)
      (by unfold Game.addpClick; cases g.editMode <;> rfl)
      (by unfold Game.addpClick; cases g.editMode <;> rfl)
  | bpStep g _ ih => exact inv8_fields ih rfl rfl rfl
  | bmStep g _ ih =>
    exact inv8_fields ih (by unfold Game.bmClick; split <;> rfl)
      (by unfold Game.bmClick; split <;> rfl)
      (by unfold Game.bmClick; split <;> rfl)
  | wpStep g _ ih => exact inv8_fields ih rfl rfl rfl
  | wmStep g _ ih =>
    exact inv8_fields ih (by unfold Game.wmClick; split <;> rfl)
      (by unfold Game.wmClick; split <;> rfl)
      (by unfold Game.wmClick; split <;> rfl)

theorem chainB_all {b0 : Board} :
    ∀ {us : List Move} {b : Board}, ChainB b0 b us →
      ∀ mv ∈ us, ∃ bb hist, LegalAt bb hist mv := by
  intro us
  induction us with
  | nil =>
    intro b _ mv hmv
    exact absurd hmv (List.not_mem_nil _)
  | cons mv0 rest ih =>
    rintro b ⟨b', hch, hleg, _⟩ mv hmv
    rcases List.mem_cons.1 hmv with rfl | hmv'
    · exact ⟨b', rest, hleg⟩
    · exact ih hch mv hmv'

theorem chainF_all :
    ∀ {R : List Move} {b : Board} {hist : List Move}, ChainF b hist R →
      ∀ mv ∈ R, ∃ bb hh, LegalAt bb hh mv := by
  intro R
  induction R with
  | nil =>
    intro b hist _ mv hmv
    exact absurd hmv (List.not_mem_nil _)
  | cons mv0 rest ih =>
    rintro b hist ⟨hleg, hcf⟩ mv hmv
    rcases List.mem_cons.1 hmv with rfl | hmv'
    · exact ⟨b, hist, hleg⟩
    · exact ih hcf mv hmv'

/-- C8: after any interleaving of play-mode proposals, undo/redo calls
and free-edit operations, every record in either history stack passed the
full play-mode legality check (occupancy and bounds via the empty-target
test, suicide, and ko) in some board/history context; moreover every
free-edit canvas click clears both stacks, so no record ever derives
from an unchecked edit. -/
theorem spec_C8 (sz : ℕ) :
    (∀ g, Reach8 sz g →
      ∀ mv ∈ g.undoSt ++ g.redoSt, ∃ b hist, LegalAt b hist mv) ∧
    (∀ (g : Game) (p : Point), g.mode = Mode.EDIT →
      (g.canvasClick p).undoSt = [] ∧ (g.canvasClick p).redoSt = []) := by
  constructor
  · intro g hr mv hmv
    obtain ⟨⟨b0, hch⟩, hcf, _, _⟩ := inv8_reach hr
    rcases List.mem_append.1 hmv with hm | hm
    · exact chainB_all hch mv hm
    · exact chainF_all hcf mv hm
  · intro g p hm
    unfold Game.canvasClick
    rw [hm]
    constructor <;> rfl

/-- C8 witness: the fresh game (empty stacks) and a concrete edit-mode
click that clears both stacks. -/
theorem spec_C8_witness :
    (∀ mv ∈ (initGame 2).undoSt ++ (initGame 2).redoSt,
      ∃ b hist, LegalAt b hist mv) ∧
    ((Game.mk Mode.EDIT Edit.ADD Player.B (mkBoard 2) 0 0 [] []).canvasClick
      ⟨1, 1⟩).undoSt = [] ∧
    ((Game.mk Mode.EDIT Edit.ADD Player.B (mkBoard 2) 0 0 [] []).canvasClick
      ⟨1, 1⟩).redoSt = [] := by
  refine ⟨(spec_C8 2).1 (initGame 2) Reach8.init, ?_, ?_⟩
  · exact ((spec_C8 2).2 _ ⟨1, 1⟩ rfl).1
  · exact ((spec_C8 2).2 _ ⟨1, 1⟩ rfl).2

end Goban
